import Mathlib

/-
Verification of the MoviePilot-Plugins core behaviors: the torrent removal
engine (plugins.v2/torrentremoverruff) and the Alist-to-strm materializer
(plugins/alist2strm).  Python floats are modelled as rationals, byte counts
and timestamps as integers, Python sets as lists whose membership is what
matters, raised exceptions as Option / none results.
-/

/-! ## Shared helpers modelling Python primitives -/

/-- Python int() applied to a float value: truncation toward zero. -/
def pyInt (q : ℚ) : Int := if 0 ≤ q then ⌊q⌋ else ⌈q⌉

/-- Python str.split on a one character separator. -/
def splitOnChar (sep : Char) (s : String) : List String :=
  (s.data.splitOn sep).map (fun l => ⟨l⟩)

/-- Python str.lower, character by character. -/
def lowerStr (s : String) : String := ⟨s.data.map Char.toLower⟩

/-! ## Torrent removal engine: data model

Mirrors TorrentInfo (plugins.v2/torrentremoverruff/__init__.py lines 31-47).
-/

structure TorrentInfo where
  is_qb : Bool
  id : String
  date_done : Option Int
  torrent_seeding_time : Int
  uploaded : ℚ
  size : Int
  ratio : ℚ
  upspeed : ℚ
  path : String
  trackers : List String
  state : Option String
  category : Option String
  site : String
  name : String
  progress : ℚ
  error_string : Option String
deriving DecidableEq

/-- The components of the tuple hashed by TorrentInfo.__hash__ (source lines
49-68): every field except progress, in source order. -/
structure Fingerprint where
  is_qb : Bool
  id : String
  date_done : Option Int
  torrent_seeding_time : Int
  uploaded : ℚ
  size : Int
  ratio : ℚ
  upspeed : ℚ
  path : String
  trackers : List String
  state : Option String
  category : Option String
  site : String
  name : String
  error_string : Option String
deriving DecidableEq

/-- The tuple hashed by TorrentInfo.__hash__ (source lines 49-68). -/
def TorrentInfo.fingerprint (t : TorrentInfo) : Fingerprint :=
  ⟨t.is_qb, t.id, t.date_done, t.torrent_seeding_time, t.uploaded, t.size,
   t.ratio, t.upspeed, t.path, t.trackers, t.state, t.category, t.site, t.name,
   t.error_string⟩

/-- TorrentInfo.__eq__ (source lines 70-73): another TorrentInfo is equal when
the two hash tuples coincide.  The Python hash of the tuple is modelled as the
tuple itself, that is, hash collisions between distinct tuples are ignored. -/
def TorrentInfo.eq (a b : TorrentInfo) : Bool :=
  decide (a.fingerprint = b.fingerprint)

/-- Plugin configuration fields read by the selection algorithm.  Empty Python
string fields are modelled as none, set fields as some of the parsed payload;
the size field holds the pair (float(sizes[0]), float(sizes[-1])) obtained
from splitting the configured string on "-".  Mode and connector fields keep
their Python string values. -/
structure RemoveConfig where
  remove_mode : String
  connection : String
  strategy : String
  strategy_action : String
  strategy_value : ℚ
  strategy_pre_filter_by_condition : Bool
  complateonly : Bool
  samedata : Bool
  pre_release : Bool
  ratio : Option ℚ
  time : Option ℚ
  size : Option (ℚ × ℚ)
  upspeed : Option ℚ
  pathkeywords : Option String
  trackerkeywords : Option String
  errorkeywords : Option String
  torrentstates : Option String
  torrentcategorys : Option String

/-- The conditions list built by TorrentRemoverRuff.__matches_remove_condition
(source lines 1038-1065): one Bool per enabled predicate, in source order.
Regex search, re.findall with re.I tested nonempty, is abstracted as the
oracle re_i taking the pattern and the text. -/
def conditionList (re_i : String → String → Bool) (cfg : RemoveConfig)
    (t : TorrentInfo) : List Bool :=
  (match cfg.ratio with
   | some r => [decide (r ≤ t.ratio)]
   | none => [])
  ++ (match cfg.time with
   | some h => [decide ((h * 3600 : ℚ) < (t.torrent_seeding_time : ℚ))]
   | none => [])
  ++ (match cfg.size with
   | some (mn, mx) =>
     if mx * 1024 ^ 3 ≠ mn * 1024 ^ 3 then
       [decide (pyInt (mn * 1024 ^ 3) ≤ t.size ∧ t.size ≤ pyInt (mx * 1024 ^ 3))]
     else
       [decide (pyInt (mn * 1024 ^ 3) ≤ t.size)]
   | none => [])
  ++ (match cfg.upspeed with
   | some u => [decide (u * 1024 ≤ t.upspeed)]
   | none => [])
  ++ (match cfg.pathkeywords with
   | some p => [re_i p t.path]
   | none => [])
  ++ (match cfg.trackerkeywords with
   | some p => [t.trackers.any (fun tr => re_i p tr)]
   | none => [])
  ++ (match cfg.torrentstates, t.state with
   | some s, some st =>
     if st ≠ "" ∧ t.is_qb = true then [decide (st ∈ splitOnChar ',' s)] else []
   | _, _ => [])
  ++ (match cfg.torrentcategorys, t.category with
   | some s, some ct =>
     if ct ≠ "" ∧ t.is_qb = true then [decide (ct ∈ splitOnChar ',' s)] else []
   | _, _ => [])
  ++ (match cfg.errorkeywords, t.error_string with
   | some p, some es =>
     if es ≠ "" ∧ t.is_qb = false then [re_i p es] else []
   | _, _ => [])

/-- TorrentRemoverRuff.__matches_remove_condition (source lines 1036-1067):
outside condition mode and without the strategy pre filter the answer is
always True; otherwise the connector folds the enabled predicates, any for
"or" and all otherwise. -/
def matches_remove_condition (re_i : String → String → Bool)
    (cfg : RemoveConfig) (t : TorrentInfo) : Bool :=
  if cfg.strategy_pre_filter_by_condition = true ∨ cfg.remove_mode = "condition" then
    if cfg.connection = "or" then (conditionList re_i cfg t).any id
    else (conditionList re_i cfg t).all id
  else true

/-- TorrentRemoverRuff.__matches_complateonly (source lines 1033-1034). -/
def matches_complateonly (cfg : RemoveConfig) (t : TorrentInfo) : Bool :=
  !(cfg.complateonly && decide (t.progress < 1))

/-! ## Torrent removal engine: selection walks -/

/-- The walk of _get_remove_torrents_by_condition (source lines 1141-1158):
returns the accumulated (key, item) group pairs, the selected items and the
keys of selected items, mirroring group_map, remove_torrents and remove_keys.
Sets are modelled as lists; only membership matters. -/
def condWalk (re_i : String → String → Bool) (cfg : RemoveConfig) :
    List TorrentInfo →
      List ((String × Int) × TorrentInfo) × List TorrentInfo × List (String × Int)
  | [] => ([], [], [])
  | t :: ts =>
    let rest := condWalk re_i cfg ts
    let should_remove := matches_remove_condition re_i cfg t && matches_complateonly cfg t
    ((if cfg.samedata then [((t.name, t.size), t)] else []) ++ rest.1,
     (if should_remove then [t] else []) ++ rest.2.1,
     (if should_remove && cfg.samedata then [(t.name, t.size)] else []) ++ rest.2.2)

/-- TorrentRemoverRuff._get_remove_torrents_by_condition (source lines
1141-1158): the selected items plus, under samedata, every grouped item whose
(name, size) key had a selected member. -/
def get_remove_torrents_by_condition (re_i : String → String → Bool)
    (cfg : RemoveConfig) (ts : List TorrentInfo) : List TorrentInfo :=
  let w := condWalk re_i cfg ts
  w.2.1 ++ (if cfg.samedata then (w.1.filter (fun p => decide (p.1 ∈ w.2.2))).map (fun p => p.2) else [])

/-- One decision of a strategy generator: the torrent together with the
should_remove and should_break flags. -/
abbrev Decision := TorrentInfo × Bool × Bool

/-- The walk of _execute_removal_strategy (source lines 1181-1194): consumes
decisions in order, stopping after the first decision whose should_break flag
is set; accumulates (key, item) group pairs, selected items and the keys of
selected items. -/
def execWalk (samedata : Bool) :
    List Decision →
      List ((String × Int) × TorrentInfo) × List TorrentInfo × List (String × Int)
  | [] => ([], [], [])
  | (t, should_remove, should_break) :: ds =>
    let rest := if should_break then ([], [], []) else execWalk samedata ds
    ((if samedata then [((t.name, t.size), t)] else []) ++ rest.1,
     (if should_remove then [t] else []) ++ rest.2.1,
     (if should_remove && samedata then [(t.name, t.size)] else []) ++ rest.2.2)

/-- TorrentRemoverRuff._execute_removal_strategy (source lines 1170-1198). -/
def execute_removal_strategy (samedata : Bool) (ds : List Decision) :
    List TorrentInfo :=
  let w := execWalk samedata ds
  w.2.1 ++ (if samedata then (w.1.filter (fun p => decide (p.1 ∈ w.2.2))).map (fun p => p.2) else [])

/-- The prefix of a decision stream actually consumed by the executor: every
decision up to and including the first one with should_break set. -/
def visitedDecisions : List Decision → List Decision
  | [] => []
  | d :: ds => if d.2.2 then [d] else d :: visitedDecisions ds

/-- Ascending progress order used by the pre_release offset (source line
1220), a stable sort by the progress key. -/
def sortByProgress (ts : List TorrentInfo) : List TorrentInfo :=
  ts.mergeSort (fun a b => decide (a.progress ≤ b.progress))

/-- The pre_release offset loop of _remove_by_freespace (source lines
1220-1226): walk torrents in ascending progress order, stop at the first
finished torrent, and add size * (1 - progress) for every torrent matching
the condition filter. -/
def preReleaseOffset (re_i : String → String → Bool) (cfg : RemoveConfig) :
    List TorrentInfo → ℚ
  | [] => 0
  | t :: ts =>
    if 1 ≤ t.progress then 0
    else
      (if matches_remove_condition re_i cfg t then (t.size : ℚ) * (1 - t.progress) else 0)
      + preReleaseOffset re_i cfg ts

/-- Effective free bytes of _remove_by_freespace (source lines 1217-1227). -/
def effectiveFree (re_i : String → String → Bool) (cfg : RemoveConfig)
    (free_bytes : ℚ) (sorted_torrents : List TorrentInfo) : ℚ :=
  free_bytes -
    (if cfg.pre_release then preReleaseOffset re_i cfg (sortByProgress sorted_torrents) else 0)

/-- The decision generator of _remove_by_freespace (source lines 1233-1246).
The Python generator is lazy and the executor stops at the break flag, so
producing the whole stream eagerly yields the same removal set. -/
def freespaceDecisions (re_i : String → String → Bool) (cfg : RemoveConfig) :
    ℚ → List TorrentInfo → List Decision
  | _, [] => []
  | need, t :: ts =>
    let should_remove := decide (0 < need) && matches_remove_condition re_i cfg t
      && matches_complateonly cfg t
    let need2 := if should_remove then need - (t.size : ℚ) else need
    (t, should_remove, decide (need2 ≤ 0) && !cfg.samedata)
      :: freespaceDecisions re_i cfg need2 ts

/-- TorrentRemoverRuff._remove_by_freespace (source lines 1210-1248).
shutil.disk_usage on the detection path is modelled as an optional free byte
count; none stands for the FileNotFoundError branch, which logs and returns
the empty set. -/
def remove_by_freespace (re_i : String → String → Bool) (cfg : RemoveConfig)
    (free_bytes : Option ℚ) (sorted_torrents : List TorrentInfo) :
    List TorrentInfo :=
  match free_bytes with
  | none => []
  | some free =>
    let eff := effectiveFree re_i cfg free sorted_torrents
    if cfg.strategy_value * 1024 ^ 3 ≤ eff then []
    else
      execute_removal_strategy cfg.samedata
        (freespaceDecisions re_i cfg (cfg.strategy_value * 1024 ^ 3 - eff) sorted_torrents)

/-- A backend call issued for one torrent by the action dispatch. -/
inductive TorrentAction where
  | stop (id : String)
  | delete (id : String) (delete_file : Bool)
deriving DecidableEq

/-- The per torrent backend calls of TorrentRemoverRuff._handle_action
(source lines 958-992): pause maps to stop_torrents, delete and deletefile to
delete_torrents with the corresponding delete_file flag; an unknown action
name raises ValueError, modelled as none. -/
def actionsFor (action : String) (ts : List TorrentInfo) :
    Option (List TorrentAction) :=
  if action = "pause" then some (ts.map (fun t => .stop t.id))
  else if action = "delete" then some (ts.map (fun t => .delete t.id false))
  else if action = "deletefile" then some (ts.map (fun t => .delete t.id true))
  else none

/-! ## Torrent removal engine: backend normalization -/

/-- Fields of a qBittorrent TorrentDictionary read by the remover. -/
structure QbTorrent where
  completion_on : Int
  added_on : Int
  size : Int
  uploaded : ℚ
  save_path : String
  trackers : List String
  hash : String
  state : String
  category : String
  ratio : ℚ
  name : String
  progress : ℚ

/-- Fields of a transmission_rpc Torrent read by the remover; the date fields
are optional timestamps, sitename is the field read from the first tracker
record. -/
structure TrTorrent where
  date_done : Option Int
  date_added : Option Int
  size_when_done : Int
  uploaded_ever : ℚ
  download_dir : String
  trackers : List String
  sitename : String
  hashString : String
  error_string : Option String
  ratio : ℚ
  name : String
  progress : ℚ

/-- A torrent as delivered by one of the two supported backends. -/
inductive BackendTorrent where
  | qb (t : QbTorrent)
  | tr (t : TrTorrent)

/-- TorrentRemoverRuff._get_seeding_time (source lines 994-1003); date_now is
int(time.time()) taken at the call. -/
def get_seeding_time (date_now : Int) : BackendTorrent → Int
  | .qb t =>
    let done_on := if 0 < t.completion_on then t.completion_on else t.added_on
    if 0 < done_on then date_now - done_on else 0
  | .tr t =>
    match t.date_done.orElse (fun _ => t.date_added) with
    | some d => date_now - d
    | none => 0

/-- Pseudo tracker placeholders dropped by the QB normalization (source line
1084). -/
def pseudoTrackers : List String := ["** [LSD] **", "** [PeX] **", "** [DHT] **"]

/-- TorrentRemoverRuff.__format_torrent_info (source lines 1069-1120).  The
external helper StringUtils.get_url_sld is abstracted as the oracle sld. -/
def format_torrent_info (sld : String → String) (date_now : Int) :
    BackendTorrent → TorrentInfo
  | .qb t =>
    let seeding := get_seeding_time date_now (.qb t)
    let trackers := t.trackers.filter (fun u => decide (u ∉ pseudoTrackers))
    { is_qb := true
      id := t.hash
      date_done := some (if 0 < t.completion_on then t.completion_on else t.added_on)
      torrent_seeding_time := seeding
      uploaded := t.uploaded
      size := t.size
      ratio := t.ratio
      upspeed := if seeding ≠ 0 then t.uploaded / (seeding : ℚ) else 0
      path := t.save_path
      trackers := trackers
      state := some t.state
      category := some t.category
      site := match trackers with | u :: _ => sld u | [] => ""
      name := t.name
      progress := t.progress
      error_string := none }
  | .tr t =>
    let seeding := get_seeding_time date_now (.tr t)
    { is_qb := false
      id := t.hashString
      date_done := t.date_done.orElse (fun _ => t.date_added)
      torrent_seeding_time := seeding
      uploaded := t.uploaded_ever
      size := t.size_when_done
      ratio := t.ratio
      upspeed := if seeding ≠ 0 then t.uploaded_ever / (seeding : ℚ) else 0
      path := t.download_dir
      trackers := t.trackers
      state := none
      category := none
      site := if t.trackers ≠ [] then t.sitename else ""
      name := t.name
      progress := t.progress
      error_string := t.error_string }

/-- Timestamps of a backend torrent do not lie in the future of date_now.
The completion and addition times a real backend reports satisfy this. -/
def timestampsNotFuture (date_now : Int) : BackendTorrent → Prop
  | .qb t => t.completion_on ≤ date_now ∧ t.added_on ≤ date_now
  | .tr t => (∀ d, t.date_done = some d → d ≤ date_now) ∧
      (∀ d, t.date_added = some d → d ≤ date_now)

/-! ## Alist2Strm: target path computation -/

/-- Python str.replace(old, new, 1) on character lists: replace the first
occurrence of old.  The caller handles the empty pattern. -/
def replaceFirstAux (old new : List Char) : List Char → List Char
  | [] => []
  | c :: cs =>
    if old.isPrefixOf (c :: cs) then new ++ (c :: cs).drop old.length
    else c :: replaceFirstAux old new cs

/-- Python str.replace(old, new, 1): an empty pattern inserts new once at the
front, otherwise the first occurrence of old is replaced. -/
def pyReplaceFirst (s old new : String) : String :=
  if old.data = [] then ⟨new.data ++ s.data⟩
  else ⟨replaceFirstAux old.data new.data s.data⟩

/-- Python str.lstrip("/"): drop every leading slash. -/
def lstripSlash (s : String) : String := ⟨s.data.dropWhile (fun c => c = '/')⟩

/-- pathlib joining of a directory and a relative path, modelled on plain
strings without normalization. -/
def pathJoin (a b : String) : String := if b = "" then a else a ++ "/" ++ b

/-- Stem of a file name for Path.with_suffix: drop the part after the last
dot when that dot is not the leading character of the name; a name without a
dot, or with only a leading dot, has no suffix and is kept whole. -/
def stemOfName (name : List Char) : List Char :=
  match name.reverse.dropWhile (fun c => c ≠ '.') with
  | [] => name
  | _ :: rest => if rest = [] then name else rest.reverse

/-- Path.with_suffix(".strm") on the string form of a path: rewrite the
suffix of the last path component to .strm. -/
def withSuffixStrm (p : String) : String :=
  let revAll := p.data.reverse
  let nameRev := revAll.takeWhile (fun c => c ≠ '/')
  let dirRev := revAll.drop nameRev.length
  ⟨dirRev.reverse ++ stemOfName nameRev.reverse ++ ".strm".data⟩

/-- Alist2Strm configuration fields consumed by the path computation and the
filter: the directory mapping and the two configured suffix sets,
settings.RMT_MEDIAEXT and settings.RMT_SUBEXT. -/
structure StrmConfig where
  target_dir : String
  source_dir : String
  path_replace : String
  media_suffixes : List String
  subtitle_suffixes : List String

/-- Alist2Strm._process_file_suffix (source line 64): the subtitle suffixes
followed by the media suffixes. -/
def processFileSuffix (cfg : StrmConfig) : List String :=
  cfg.subtitle_suffixes ++ cfg.media_suffixes

/-- Alist2Strm.__cached_computed_target_path (source lines 283-292): join
target_dir with the remote path after replacing the first occurrence of
source_dir by path_replace and stripping leading slashes; media suffixes are
rewritten to .strm. -/
def computed_target_path (cfg : StrmConfig) (path suffix : String) : String :=
  let target := pathJoin cfg.target_dir
    (lstripSlash (pyReplaceFirst path cfg.source_dir cfg.path_replace))
  if lowerStr suffix ∈ cfg.media_suffixes then withSuffixStrm target else target

/-- Modelled from the spec sentence on target paths: target_dir joined with
remote_path.replace(source_dir, path_replace, 1).lstrip("/"), with the suffix
rewritten to .strm when the remote suffix is a media suffix. -/
def specTargetPath (cfg : StrmConfig) (path suffix : String) : String :=
  let replaced := pyReplaceFirst path cfg.source_dir cfg.path_replace
  let joined := pathJoin cfg.target_dir (lstripSlash replaced)
  if lowerStr suffix ∈ cfg.media_suffixes then withSuffixStrm joined else joined

/-! ## Alist2Strm: filter function and GC sweep -/

/-- A remote file entry as seen by the filter: remote path and suffix. -/
structure AlistFileView where
  path : String
  suffix : String
deriving DecidableEq

/-- Alist2Strm.__filter_func (source lines 146-159) on one entry: whether the
entry is emitted, together with the updated processed set.  The target path
is recorded in the processed set, when sync_remote is on, before the cleaner
membership test.  The cleaner membership test is abstracted as
cleanerContains. -/
def filter_func (cfg : StrmConfig) (sync_remote : Bool)
    (cleanerContains : String → Bool) (processed : List String)
    (e : AlistFileView) : Bool × List String :=
  if lowerStr e.suffix ∉ processFileSuffix cfg then (false, processed)
  else
    let local_path := computed_target_path cfg e.path e.suffix
    let processed2 := if sync_remote then local_path :: processed else processed
    if cleanerContains local_path then (false, processed2)
    else (true, processed2)

/-- Folding filter_func over the entries a traversal pass visits: the final
processed set and the emitted entries in order.  The cleaner additions made
by the producer after emission are not modelled; cleanerContains is the
membership test at the time each entry is examined. -/
def producePass (cfg : StrmConfig) (sync_remote : Bool)
    (cleanerContains : String → Bool) :
    List String → List AlistFileView → List String × List AlistFileView
  | processed, [] => (processed, [])
  | processed, e :: es =>
    let r := filter_func cfg sync_remote cleanerContains processed e
    let rest := producePass cfg sync_remote cleanerContains r.2 es
    (rest.1, (if r.1 then [e] else []) ++ rest.2)

/-- SetCleaner.clean_inviially (filter.py lines 132-139): delete every path
of the filter that is not in the processed set and drop it from the filter.
Returns the deleted paths and the new filter content. -/
def clean_inviially (filterS processed : List String) :
    List String × List String :=
  (filterS.filter (fun p => decide (p ∉ processed)),
   filterS.filter (fun p => decide (p ∈ processed)))

/-- Effect of the sweep on the local disk, modelled as a list of file paths:
every deleted path is unlinked. -/
def diskAfterSweep (disk filterS processed : List String) : List String :=
  disk.filter (fun p => decide (p ∉ (clean_inviially filterS processed).1))

/-! ## Alist2Strm: remote tree traversal

The remote listing API is modelled as a finite directory tree; file names
stand for the file entries of a directory listing.
-/

/-- A finite remote directory tree. -/
inductive RTree where
  | node (files : List String) (dirs : List RTree)

mutual
/-- Number of directories of a tree, the termination measure of the
traversal loops. -/
def treeSize : RTree → Nat
  | .node _ ds => 1 + forestSize ds
/-- Total size of a list of trees. -/
def forestSize : List RTree → Nat
  | [] => 0
  | t :: ts => treeSize t + forestSize ts
end

/-- Total size of a traversal frontier. -/
def frontierSize : List (RTree × Int) → Nat
  | [] => 0
  | (t, _) :: rest => treeSize t + frontierSize rest

/-- AlistClient.iter_path process_dir (alist.py lines 223-244) on the tree
model: the files of the directory passing the filter, tagged with the
directory depth, and the subdirectories tagged depth + 1, kept only when
max_depth is -1 or depth + 1 is within it. -/
def processDir (filterF : String → Bool) (max_depth : Int) (t : RTree)
    (depth : Int) : List (String × Int) × List (RTree × Int) :=
  match t with
  | .node fs ds =>
    ((fs.filter filterF).map (fun f => (f, depth)),
     if max_depth = -1 ∨ depth + 1 ≤ max_depth then
       ds.map (fun c => (c, depth + 1))
     else [])

mutual
/-- Reference enumeration: every file of the tree together with its depth,
the depth of its containing directory, the root directory being depth 0. -/
def allFiles : RTree → Int → List (String × Int)
  | .node fs ds, depth => fs.map (fun f => (f, depth)) ++ allFilesForest ds (depth + 1)
/-- Reference enumeration over a list of sibling trees. -/
def allFilesForest : List RTree → Int → List (String × Int)
  | [], _ => []
  | t :: ts, depth => allFiles t depth ++ allFilesForest ts depth
end

/-- The bfs_traversal loop of iter_path (alist.py lines 247-276), with the
frontier split into the directories of the current level and the collected
next level: each directory of the current level is processed and its files
emitted; once the level is exhausted the loop advances to the next level.
Completion order inside a level is nondeterministic in the source; every
claim proved below is order independent. -/
def bfsAux (filterF : String → Bool) (max_depth : Int) :
    List (RTree × Int) → List (RTree × Int) → List (String × Int)
  | [], [] => []
  | [], q :: qs => bfsAux filterF max_depth (q :: qs) []
  | (t, dep) :: rest, next =>
    let r := processDir filterF max_depth t dep
    r.1 ++ bfsAux filterF max_depth rest (next ++ r.2)
termination_by cur next => (frontierSize cur + frontierSize next, next.length)
decreasing_by
  · simp only [frontierSize, Nat.add_zero, Nat.zero_add, List.length_nil]
    exact Prod.Lex.right _ (by simp)
  · have hadd : ∀ l1 l2 : List (RTree × Int),
        frontierSize (l1 ++ l2) = frontierSize l1 + frontierSize l2 := by
      intro l1 l2
      induction l1 with
      | nil => simp [frontierSize]
      | cons a l ih => cases a; simp [frontierSize, ih]; omega
    have hsub : frontierSize (processDir filterF max_depth t dep).2 < treeSize t := by
      cases t with
      | node fs ds =>
        have h1 : ∀ l : List RTree, ∀ d : Int,
            frontierSize (l.map (fun c => (c, d))) = forestSize l := by
          intro l d
          induction l with
          | nil => simp [frontierSize, forestSize]
          | cons x xs ih => simp [frontierSize, forestSize, ih]
        simp only [processDir]
        split
        · rw [h1]; simp [treeSize]
        · simp [frontierSize, treeSize]
    apply Prod.Lex.left
    simp only [frontierSize, hadd]
    omega

/-- AlistClient.iter_path in bfs mode, starting from the root at depth 0. -/
def bfsTraversal (filterF : String → Bool) (max_depth : Int)
    (start : List (RTree × Int)) : List (String × Int) :=
  bfsAux filterF max_depth start []

/-- The dfs_traversal loop of iter_path (alist.py lines 279-288): a LIFO
frontier; each pop lists one directory, emits its files, and pushes its
subdirectories in listing order, so the last listed subdirectory is visited
first. -/
def dfsTraversal (filterF : String → Bool) (max_depth : Int) :
    List (RTree × Int) → List (String × Int)
  | [] => []
  | (t, dep) :: rest =>
    let r := processDir filterF max_depth t dep
    r.1 ++ dfsTraversal filterF max_depth (r.2.reverse ++ rest)
termination_by stack => frontierSize stack
decreasing_by
  rename_i dep
  have hadd : ∀ l1 l2 : List (RTree × Int),
      frontierSize (l1 ++ l2) = frontierSize l1 + frontierSize l2 := by
    intro l1 l2
    induction l1 with
    | nil => simp [frontierSize]
    | cons a l ih => cases a; simp [frontierSize, ih]; omega
  have hrev : ∀ l : List (RTree × Int), frontierSize l.reverse = frontierSize l := by
    intro l
    induction l with
    | nil => rfl
    | cons a l ih => cases a; simp [frontierSize, hadd, ih]; omega
  have hsub : frontierSize (processDir filterF max_depth t dep).2 < treeSize t := by
    cases t with
    | node fs ds =>
      have h1 : ∀ l : List RTree, ∀ d : Int,
          frontierSize (l.map (fun c => (c, d))) = forestSize l := by
        intro l d
        induction l with
        | nil => simp [frontierSize, forestSize]
        | cons x xs ih => simp [frontierSize, forestSize, ih]
      simp only [processDir]
      split
      · rw [h1]; simp [treeSize]
      · simp [frontierSize, treeSize]
  simp only [frontierSize, hadd, hrev]
  omega

/-! ## Counting Bloom filter (alist2strm/bloom.py)

One layer holds the probe array size m, the hash count k, the 8-bit
saturating counters and the signed element count.  The sizing of m and k from
the expected count and the error budget uses real logarithms and is taken as
given.  The SHA-1 double hashing base is abstracted as an oracle giving the
pair (hash1, hash2) of an element; the probe indices keep the source formula
(hash1 + i * hash2) mod m.
-/

structure BloomLayer where
  m : Nat
  k : Nat
  counters : List Nat
  element_count : Int
deriving DecidableEq

/-- BloomLayer._set_counter (bloom.py lines 30-32): clamp into [0, 255]. -/
def setCounter (c : List Nat) (idx : Nat) (value : Int) : List Nat :=
  c.set idx (max 0 (min value 255)).toNat

/-- BloomLayer.update (bloom.py lines 37-42): bump every probe index by delta
with clamping, then shift the element count once. -/
def layerUpdate (layer : BloomLayer) (indices : List Nat) (delta : Int) :
    BloomLayer :=
  { layer with
    counters := indices.foldl
      (fun c idx => setCounter c idx ((c.getD idx 0 : Int) + delta)) layer.counters
    element_count := layer.element_count + delta }

/-- BloomLayer.check (bloom.py lines 44-45): all probes positive. -/
def layerCheck (layer : BloomLayer) (indices : List Nat) : Bool :=
  indices.all (fun idx => decide (0 < layer.counters.getD idx 0))

/-- CoutingBloomFilter._hash (bloom.py lines 62-67) with the SHA-1 words
abstracted as the oracle h: probe index (hash1 + i * hash2) mod m for every
i below k. -/
def bloomIndices {α : Type} (h : α → Nat × Nat) (x : α) (m k : Nat) :
    List Nat :=
  (List.range k).map (fun i => ((h x).1 + i * (h x).2) % m)

/-- CoutingBloomFilter.add (bloom.py lines 69-72): update the newest layer.
The constructor guarantees at least one layer; an empty layer list is left
unchanged. -/
def bloomAdd {α : Type} (h : α → Nat × Nat) (F : List BloomLayer) (x : α) :
    List BloomLayer :=
  match F.getLast? with
  | none => F
  | some last => F.dropLast ++ [layerUpdate last (bloomIndices h x last.m last.k) 1]

/-- CoutingBloomFilter.__contains__ (bloom.py lines 74-80): true when some
layer, scanned newest first, has every probe positive. -/
def bloomContains {α : Type} (h : α → Nat × Nat) (F : List BloomLayer)
    (x : α) : Bool :=
  F.reverse.any (fun layer => layerCheck layer (bloomIndices h x layer.m layer.k))

/-- Helper of CoutingBloomFilter.remove working on the reversed layer list,
newest layer first: decrement the first layer whose check passes; none when
no layer passes, the ValueError branch. -/
def removeRev {α : Type} (h : α → Nat × Nat) (x : α) :
    List BloomLayer → Option (List BloomLayer)
  | [] => none
  | layer :: rest =>
    if layerCheck layer (bloomIndices h x layer.m layer.k) then
      some (layerUpdate layer (bloomIndices h x layer.m layer.k) (-1) :: rest)
    else
      (removeRev h x rest).map (fun r => layer :: r)

/-- CoutingBloomFilter.remove (bloom.py lines 82-89). -/
def bloomRemove {α : Type} (h : α → Nat × Nat) (F : List BloomLayer) (x : α) :
    Option (List BloomLayer) :=
  (removeRev h x F.reverse).map List.reverse

/-- A sequence of adds. -/
def bloomAddAll {α : Type} (h : α → Nat × Nat) (F : List BloomLayer)
    (S : List α) : List BloomLayer :=
  S.foldl (bloomAdd h) F

/-- A sequence of removes; a raised ValueError aborts the sequence. -/
def bloomRemoveAll {α : Type} (h : α → Nat × Nat) (F : List BloomLayer)
    (S : List α) : Option (List BloomLayer) :=
  S.foldlM (bloomRemove h) F

/-- Multiplicity of probe index i over the adds of S on a layer of shape
(m, k). -/
def probeCount {α : Type} (h : α → Nat × Nat) (m k : Nat) (S : List α)
    (i : Nat) : Nat :=
  (S.flatMap (fun x => bloomIndices h x m k)).count i

/-! ## Concrete instances used by the theorems below -/

/-- A torrent record with every field at a base value. -/
def baseTorrent : TorrentInfo :=
  { is_qb := true
    id := "h1"
    date_done := some 0
    torrent_seeding_time := 0
    uploaded := 0
    size := 0
    ratio := 0
    upspeed := 0
    path := ""
    trackers := []
    state := none
    category := none
    site := ""
    name := "n"
    progress := 0
    error_string := none }

/-- The same record with a different progress. -/
def progressTorrent : TorrentInfo := { baseTorrent with progress := 1 }

/-- A condition mode configuration with every condition field empty. -/
def condEmptyConfig (conn : String) : RemoveConfig :=
  { remove_mode := "condition"
    connection := conn
    strategy := "freespace"
    strategy_action := "old_seeds"
    strategy_value := 0
    strategy_pre_filter_by_condition := false
    complateonly := false
    samedata := false
    pre_release := false
    ratio := none
    time := none
    size := none
    upspeed := none
    pathkeywords := none
    trackerkeywords := none
    errorkeywords := none
    torrentstates := none
    torrentcategorys := none }

/-- The freespace strategy configuration of scenario S3: strategy mode,
freespace with a 100 GB target, small_seeds order, no condition pre filter,
no samedata, no pre_release. -/
def cfgS3 : RemoveConfig :=
  { remove_mode := "strategy"
    connection := "and"
    strategy := "freespace"
    strategy_action := "small_seeds"
    strategy_value := 100
    strategy_pre_filter_by_condition := false
    complateonly := false
    samedata := false
    pre_release := false
    ratio := none
    time := none
    size := none
    upspeed := none
    pathkeywords := none
    trackerkeywords := none
    errorkeywords := none
    torrentstates := none
    torrentcategorys := none }

/-- A completed torrent of n GB, 1 GB being 2 to the 30 bytes. -/
def tG (n : Int) : TorrentInfo :=
  { baseTorrent with id := "", name := "", size := n * 1073741824, progress := 1 }

/-- Two cross seeded torrents: same name and size, different ids. -/
def tKey (i : String) : TorrentInfo :=
  { baseTorrent with id := i, name := "s", size := 7 }

/-- A decision stream where only the first of the two cross seeds is
selected. -/
def dsSame : List Decision := [(tKey "1", true, false), (tKey "2", false, false)]

/-- A qBittorrent torrent whose completion time lies in the future of the
pass. -/
def qbLate : QbTorrent :=
  { completion_on := 200
    added_on := 0
    size := 1000
    uploaded := 50
    save_path := "/d"
    trackers := []
    hash := "h"
    state := "uploading"
    category := ""
    ratio := 1
    name := "n"
    progress := 1 }

/-- A qBittorrent torrent completed in the past of the pass. -/
def qbOk : QbTorrent := { qbLate with completion_on := 50 }

/-- The materializer configuration of the GC counterexample. -/
def cfgStrm : StrmConfig :=
  { target_dir := "/dst"
    source_dir := "/src"
    path_replace := ""
    media_suffixes := [".mkv"]
    subtitle_suffixes := [".srt"] }

/-- A media entry whose target already exists locally. -/
def entryA : AlistFileView := { path := "/src/a.mkv", suffix := ".mkv" }

/-- A two level remote tree. -/
def tree7 : RTree := .node ["a"] [.node ["b"] [.node ["c"] []]]

/-- The Bloom layer of the saturation counterexample: m = 8, k = 2, all
counters zero. -/
def layer8 : BloomLayer := { m := 8, k := 2, counters := List.replicate 8 0, element_count := 0 }

/-- A hash oracle sending every element to the word pair (0, 1). -/
def hash01 : Nat → Nat × Nat := fun _ => (0, 1)

/-- 256 adds of one element. -/
def adds256 : List Nat := List.replicate 256 0

/-! ## C2: TorrentInfo equality and hashing -/

/-- C2 counterexample: two records that differ exactly in progress compare
equal under TorrentInfo.__eq__, because the hash tuple omits progress, so
equality does not require every field to agree. -/
theorem c2_progress_counterexample :
    TorrentInfo.eq baseTorrent progressTorrent = true ∧
      baseTorrent ≠ progressTorrent ∧
      baseTorrent.progress ≠ progressTorrent.progress := by
  refine ⟨by decide, by decide, by decide⟩

/-- C2 amended: two TorrentInfo records compare equal under the source
equality exactly when every hashed field agrees, that is every field except
progress; the hash is computed over those same fields. -/
theorem c2_eq_iff_fields_except_progress :
    ∀ a b : TorrentInfo,
      TorrentInfo.eq a b = true ↔
        (a.is_qb = b.is_qb ∧ a.id = b.id ∧ a.date_done = b.date_done ∧
         a.torrent_seeding_time = b.torrent_seeding_time ∧
         a.uploaded = b.uploaded ∧ a.size = b.size ∧ a.ratio = b.ratio ∧
         a.upspeed = b.upspeed ∧ a.path = b.path ∧ a.trackers = b.trackers ∧
         a.state = b.state ∧ a.category = b.category ∧ a.site = b.site ∧
         a.name = b.name ∧ a.error_string = b.error_string) := by
  intro a b
  simp [TorrentInfo.eq, TorrentInfo.fingerprint, Fingerprint.mk.injEq]

/-! ## C5: target path computation -/

/-- C5: the target path computation equals the spec formula, target_dir
joined with remote_path.replace(source_dir, path_replace, 1).lstrip("/") and
a media suffix rewritten to .strm, and it is a pure deterministic function of
the (remote_path, suffix) pair, so memoization cannot change the result. -/
theorem c5_target_path :
    (∀ cfg p s, computed_target_path cfg p s = specTargetPath cfg p s) ∧
      (∀ cfg p s q t, p = q → s = t →
        computed_target_path cfg p s = computed_target_path cfg q t) := by
  refine ⟨fun cfg p s => rfl, fun cfg p s q t hp hs => by rw [hp, hs]⟩

/-- Witness for c5_target_path at a concrete media path. -/
theorem c5_target_path_witness :
    "/src/a.mkv" = "/src/a.mkv" ∧ ".mkv" = ".mkv" ∧
      computed_target_path cfgStrm "/src/a.mkv" ".mkv" =
        computed_target_path cfgStrm "/src/a.mkv" ".mkv" :=
  ⟨rfl, rfl, c5_target_path.2 cfgStrm "/src/a.mkv" ".mkv" "/src/a.mkv" ".mkv" rfl rfl⟩

/-! ## C10: missing freespace detection path -/

/-- C10: when disk_usage raises FileNotFoundError on the detection path, the
freespace strategy returns the empty removal set, and dispatching an empty
set issues no backend call, so nothing is paused or deleted in the pass. -/
theorem c10_missing_detect_path :
    (∀ re_i cfg ts, remove_by_freespace re_i cfg none ts = []) ∧
      (∀ act : String, (actionsFor act []).getD [] = []) := by
  refine ⟨fun re_i cfg ts => rfl, fun act => ?_⟩
  simp only [actionsFor]
  split <;> [simp; split <;> [simp; split <;> simp]]

/-! ## C1: condition mode connector semantics -/

/-- C1: in condition mode with every condition field empty the evaluator
reduces to the identity of the connector, True for the and connector and
False for the or connector; in general the answer is the conjunction,
respectively disjunction, of exactly the enabled predicates collected in
conditionList. -/
theorem c1_condition_connector :
    (∀ re_i cfg t, cfg.remove_mode = "condition" →
      cfg.ratio = none → cfg.time = none → cfg.size = none →
      cfg.upspeed = none → cfg.pathkeywords = none →
      cfg.trackerkeywords = none → cfg.torrentstates = none →
      cfg.torrentcategorys = none → cfg.errorkeywords = none →
      ((cfg.connection = "and" → matches_remove_condition re_i cfg t = true) ∧
       (cfg.connection = "or" → matches_remove_condition re_i cfg t = false))) ∧
    (∀ re_i cfg t, cfg.remove_mode = "condition" →
      (matches_remove_condition re_i cfg t = true ↔
        (if cfg.connection = "or" then
          ∃ b ∈ conditionList re_i cfg t, b = true
         else
          ∀ b ∈ conditionList re_i cfg t, b = true))) := by
  constructor
  · intro re_i cfg t hmode hr ht hs hu hp htr hst hct he
    have hempty : conditionList re_i cfg t = [] := by
      simp [conditionList, hr, ht, hs, hu, hp, htr, hst, hct, he]
    constructor
    · intro hconn
      simp [matches_remove_condition, hmode, hconn, hempty]
    · intro hconn
      simp [matches_remove_condition, hmode, hconn, hempty]
  · intro re_i cfg t hmode
    by_cases hconn : cfg.connection = "or"
    · simp [matches_remove_condition, hmode, hconn, List.any_eq_true]
    · simp [matches_remove_condition, hmode, hconn, List.all_eq_true]

/-- Witness for c1_condition_connector: the empty and connector
configuration accepts the base torrent and the empty or configuration
rejects it. -/
theorem c1_condition_connector_witness :
    (condEmptyConfig "and").remove_mode = "condition" ∧
      matches_remove_condition (fun _ _ => false) (condEmptyConfig "and") baseTorrent = true ∧
      matches_remove_condition (fun _ _ => false) (condEmptyConfig "or") baseTorrent = false :=
  ⟨rfl,
   (c1_condition_connector.1 (fun _ _ => false) (condEmptyConfig "and") baseTorrent
      rfl rfl rfl rfl rfl rfl rfl rfl rfl rfl).1 rfl,
   (c1_condition_connector.1 (fun _ _ => false) (condEmptyConfig "or") baseTorrent
      rfl rfl rfl rfl rfl rfl rfl rfl rfl rfl).2 rfl⟩

/-! ## C9: seeding time and average upload speed -/

/-- C9 counterexample: a qBittorrent torrent whose completion timestamp lies
in the future of the pass yields a negative seeding time; the source does not
clamp now minus done at zero. -/
theorem c9_negative_seeding_counterexample :
    (format_torrent_info (fun s => s) 100 (.qb qbLate)).torrent_seeding_time = -100 ∧
      ¬ 0 ≤ (format_torrent_info (fun s => s) 100 (.qb qbLate)).torrent_seeding_time := by
  refine ⟨by decide, by decide⟩

/-- C9 amended: whenever the backend timestamps do not lie in the future of
the pass, the normalized seeding time is nonnegative; in every case the
average upload speed is uploaded divided by the seeding time when the latter
is nonzero, and zero when it is zero, so the division is never performed
with a zero denominator. -/
theorem c9_seeding_time_upspeed :
    ∀ (sld : String → String) (now : Int) (bt : BackendTorrent),
      (timestampsNotFuture now bt →
        0 ≤ (format_torrent_info sld now bt).torrent_seeding_time) ∧
      ((format_torrent_info sld now bt).torrent_seeding_time ≠ 0 →
        (format_torrent_info sld now bt).upspeed =
          (format_torrent_info sld now bt).uploaded /
            ((format_torrent_info sld now bt).torrent_seeding_time : ℚ)) ∧
      ((format_torrent_info sld now bt).torrent_seeding_time = 0 →
        (format_torrent_info sld now bt).upspeed = 0) := by
  intro sld now bt
  cases bt with
  | qb t =>
    refine ⟨?_, ?_, ?_⟩
    · intro h
      obtain ⟨h1, h2⟩ := h
      simp only [format_torrent_info, get_seeding_time]
      split <;> omega
    · intro h
      simp only [format_torrent_info, get_seeding_time] at h ⊢
      rw [if_pos h]
    · intro h
      simp only [format_torrent_info, get_seeding_time] at h ⊢
      rw [if_neg (by simpa using h)]
  | tr t =>
    refine ⟨?_, ?_, ?_⟩
    · intro h
      obtain ⟨h1, h2⟩ := h
      simp only [format_torrent_info, get_seeding_time]
      cases hd : t.date_done with
      | some d =>
        simp only [Option.orElse, Option.some_orElse, hd]
        have := h1 d hd
        omega
      | none =>
        cases ha : t.date_added with
        | some d =>
          simp only [Option.orElse, hd, ha]
          have := h2 d ha
          omega
        | none =>
          simp only [Option.orElse, hd, ha]
          omega
    · intro h
      simp only [format_torrent_info, get_seeding_time] at h ⊢
      rw [if_pos h]
    · intro h
      simp only [format_torrent_info, get_seeding_time] at h ⊢
      rw [if_neg (by simpa using h)]

/-- Witness for c9_seeding_time_upspeed at a torrent completed in the past:
its seeding time is nonnegative. -/
theorem c9_seeding_time_upspeed_witness :
    timestampsNotFuture 100 (.qb qbOk) ∧
      0 ≤ (format_torrent_info (fun s => s) 100 (.qb qbOk)).torrent_seeding_time :=
  ⟨⟨by decide, by decide⟩,
   (c9_seeding_time_upspeed (fun s => s) 100 (.qb qbOk)).1 ⟨by decide, by decide⟩⟩

/-! ## C4: samedata cross seed expansion -/

/-- Under samedata the executor groups exactly the visited decisions. -/
theorem execWalk_group_eq (ds : List Decision) :
    (execWalk true ds).1 =
      (visitedDecisions ds).map (fun d => ((d.1.name, d.1.size), d.1)) := by
  induction ds with
  | nil => rfl
  | cons d ds ih =>
    obtain ⟨t, r, brk⟩ := d
    by_cases hb : brk = true
    · simp [execWalk, visitedDecisions, hb]
    · simp [execWalk, visitedDecisions, hb, ih]

/-- Under samedata the selected items are the visited decisions whose
should_remove flag is set. -/
theorem execWalk_sel_eq (ds : List Decision) :
    (execWalk true ds).2.1 =
      ((visitedDecisions ds).filter (fun d => d.2.1)).map (fun d => d.1) := by
  induction ds with
  | nil => rfl
  | cons d ds ih =>
    obtain ⟨t, r, brk⟩ := d
    by_cases hb : brk = true
    · by_cases hr : r = true <;> simp [execWalk, visitedDecisions, hb, hr]
    · by_cases hr : r = true <;> simp [execWalk, visitedDecisions, hb, hr, ih]

/-- Under samedata the selected keys are the keys of the selected items. -/
theorem execWalk_keys_eq (ds : List Decision) :
    (execWalk true ds).2.2 =
      ((visitedDecisions ds).filter (fun d => d.2.1)).map
        (fun d => (d.1.name, d.1.size)) := by
  induction ds with
  | nil => rfl
  | cons d ds ih =>
    obtain ⟨t, r, brk⟩ := d
    by_cases hb : brk = true
    · by_cases hr : r = true <;> simp [execWalk, visitedDecisions, hb, hr]
    · by_cases hr : r = true <;> simp [execWalk, visitedDecisions, hb, hr, ih]

/-- Every grouped item of the executor walk comes from the decision list. -/
theorem execWalk_group_subset (sd : Bool) (ds : List Decision) :
    ∀ p ∈ (execWalk sd ds).1, p.2 ∈ ds.map (fun d => d.1) := by
  induction ds with
  | nil => intro p hp; simp [execWalk] at hp
  | cons d ds ih =>
    obtain ⟨t, r, brk⟩ := d
    intro p hp
    by_cases hb : brk = true
    · simp only [execWalk, hb, if_true] at hp
      rcases List.mem_append.1 hp with h | h
      · rcases sd with _ | _ <;> simp_all
      · simp at h
    · simp only [execWalk, hb, if_false, Bool.false_eq_true] at hp
      rcases List.mem_append.1 hp with h | h
      · rcases sd with _ | _ <;> simp_all
      · have := ih p h
        simp [this]

/-- Every selected item of the executor walk comes from the decision list. -/
theorem execWalk_sel_subset (sd : Bool) (ds : List Decision) :
    ∀ x ∈ (execWalk sd ds).2.1, x ∈ ds.map (fun d => d.1) := by
  induction ds with
  | nil => intro x hx; simp [execWalk] at hx
  | cons d ds ih =>
    obtain ⟨t, r, brk⟩ := d
    intro x hx
    by_cases hb : brk = true
    · simp only [execWalk, hb, if_true] at hx
      rcases List.mem_append.1 hx with h | h
      · rcases r with _ | _ <;> simp_all
      · simp at h
    · simp only [execWalk, hb, if_false, Bool.false_eq_true] at hx
      rcases List.mem_append.1 hx with h | h
      · rcases r with _ | _ <;> simp_all
      · have := ih x h
        simp [this]

/-- Under samedata the condition walk groups every listed torrent. -/
theorem condWalk_group_eq (re_i : String → String → Bool) (cfg : RemoveConfig)
    (h : cfg.samedata = true) (ts : List TorrentInfo) :
    (condWalk re_i cfg ts).1 = ts.map (fun t => ((t.name, t.size), t)) := by
  induction ts with
  | nil => rfl
  | cons t ts ih => simp [condWalk, h, ih]

/-- The condition walk selects exactly the torrents passing both filters. -/
theorem condWalk_sel_eq (re_i : String → String → Bool) (cfg : RemoveConfig)
    (ts : List TorrentInfo) :
    (condWalk re_i cfg ts).2.1 =
      ts.filter (fun t => matches_remove_condition re_i cfg t && matches_complateonly cfg t) := by
  induction ts with
  | nil => rfl
  | cons t ts ih =>
    by_cases hr : (matches_remove_condition re_i cfg t && matches_complateonly cfg t) = true
    · simp [condWalk, hr, ih, List.filter_cons]
    · simp [condWalk, hr, ih, List.filter_cons]

/-- Under samedata the condition walk keeps the keys of selected torrents. -/
theorem condWalk_keys_eq (re_i : String → String → Bool) (cfg : RemoveConfig)
    (h : cfg.samedata = true) (ts : List TorrentInfo) :
    (condWalk re_i cfg ts).2.2 =
      (ts.filter (fun t => matches_remove_condition re_i cfg t && matches_complateonly cfg t)).map
        (fun t => (t.name, t.size)) := by
  induction ts with
  | nil => rfl
  | cons t ts ih =>
    by_cases hr : (matches_remove_condition re_i cfg t && matches_complateonly cfg t) = true
    · simp [condWalk, h, hr, ih, List.filter_cons]
    · simp [condWalk, h, hr, ih, List.filter_cons]

/-- Every grouped item of the condition walk comes from the listed input. -/
theorem condWalk_group_subset (re_i : String → String → Bool)
    (cfg : RemoveConfig) (ts : List TorrentInfo) :
    ∀ p ∈ (condWalk re_i cfg ts).1, p.2 ∈ ts := by
  induction ts with
  | nil => intro p hp; simp [condWalk] at hp
  | cons t ts ih =>
    intro p hp
    simp only [condWalk] at hp
    rcases List.mem_append.1 hp with h | h
    · rcases hs : cfg.samedata with _ | _ <;> simp_all
    · have := ih p h
      simp [this]

/-- C4: under samedata, in both removal modes, whenever some visited member
of a (name, size) group is selected, every visited member of that group lands
in the removal set, selected or not; and in both modes, for every samedata
setting, the removal set only contains torrents of the listed input. -/
theorem c4_samedata_expansion :
    (∀ (ds : List Decision) (a b : TorrentInfo) (brka rb brkb : Bool),
        (a, true, brka) ∈ visitedDecisions ds →
        (b, rb, brkb) ∈ visitedDecisions ds →
        a.name = b.name → a.size = b.size →
        b ∈ execute_removal_strategy true ds) ∧
    (∀ (sd : Bool) (ds : List Decision) (x : TorrentInfo),
        x ∈ execute_removal_strategy sd ds → x ∈ ds.map (fun d => d.1)) ∧
    (∀ re_i cfg (ts : List TorrentInfo) (a b : TorrentInfo),
        cfg.samedata = true →
        a ∈ ts →
        (matches_remove_condition re_i cfg a && matches_complateonly cfg a) = true →
        b ∈ ts → a.name = b.name → a.size = b.size →
        b ∈ get_remove_torrents_by_condition re_i cfg ts) ∧
    (∀ re_i cfg (ts : List TorrentInfo) (x : TorrentInfo),
        x ∈ get_remove_torrents_by_condition re_i cfg ts → x ∈ ts) := by
  refine ⟨?_, ?_, ?_, ?_⟩
  · intro ds a b brka rb brkb ha hb hname hsize
    simp only [execute_removal_strategy, if_true]
    refine List.mem_append.2 (Or.inr ?_)
    refine List.mem_map.2 ⟨((b.name, b.size), b), ?_, rfl⟩
    refine List.mem_filter.2 ⟨?_, ?_⟩
    · rw [execWalk_group_eq]
      exact List.mem_map.2 ⟨(b, rb, brkb), hb, rfl⟩
    · rw [execWalk_keys_eq]
      refine decide_eq_true ?_
      refine List.mem_map.2 ⟨(a, true, brka), ?_, by simp [hname, hsize]⟩
      exact List.mem_filter.2 ⟨ha, rfl⟩
  · intro sd ds x hx
    simp only [execute_removal_strategy] at hx
    rcases List.mem_append.1 hx with h | h
    · exact execWalk_sel_subset sd ds x h
    · rcases sd with _ | _
      · simp at h
      · simp only [if_true, List.mem_map] at h
        obtain ⟨p, hp, hpx⟩ := h
        have := execWalk_group_subset true ds p (List.mem_filter.1 hp).1
        rw [hpx] at this
        exact this
  · intro re_i cfg ts a b hsd ha hsel hb hname hsize
    simp only [get_remove_torrents_by_condition, hsd, if_true]
    refine List.mem_append.2 (Or.inr ?_)
    refine List.mem_map.2 ⟨((b.name, b.size), b), ?_, rfl⟩
    refine List.mem_filter.2 ⟨?_, ?_⟩
    · rw [condWalk_group_eq re_i cfg hsd]
      exact List.mem_map.2 ⟨b, hb, rfl⟩
    · rw [condWalk_keys_eq re_i cfg hsd]
      refine decide_eq_true ?_
      refine List.mem_map.2 ⟨a, ?_, by simp [hname, hsize]⟩
      exact List.mem_filter.2 ⟨ha, hsel⟩
  · intro re_i cfg ts x hx
    simp only [get_remove_torrents_by_condition] at hx
    rcases List.mem_append.1 hx with h | h
    · rw [condWalk_sel_eq] at h
      exact (List.mem_filter.1 h).1
    · rcases hs : cfg.samedata with _ | _
      · rw [hs] at h; simp at h
      · rw [hs] at h
        simp only [if_true, List.mem_map] at h
        obtain ⟨p, hp, hpx⟩ := h
        have := condWalk_group_subset re_i cfg ts p (List.mem_filter.1 hp).1
        rw [hpx] at this
        exact this

/-- Witness for c4_samedata_expansion: in a stream where only the first of
two cross seeds is selected, the second one is removed as well. -/
theorem c4_samedata_expansion_witness :
    (tKey "1", true, false) ∈ visitedDecisions dsSame ∧
      tKey "2" ∈ execute_removal_strategy true dsSame :=
  ⟨by decide,
   c4_samedata_expansion.1 dsSame (tKey "1") (tKey "2") false false false
     (by decide) (by decide) rfl rfl⟩

/-! ## C3: freespace strategy -/

/-- Every selected item of the executor walk was selected by a decision with
the should_remove flag set. -/
theorem execWalk_sel_flag (sd : Bool) (ds : List Decision) :
    ∀ x ∈ (execWalk sd ds).2.1, ∃ brk, (x, true, brk) ∈ ds := by
  induction ds with
  | nil => intro x hx; simp [execWalk] at hx
  | cons d ds ih =>
    obtain ⟨t, r, brk⟩ := d
    intro x hx
    by_cases hb : brk = true
    · simp only [execWalk, hb, if_true] at hx
      rcases List.mem_append.1 hx with h | h
      · rcases r with _ | _
        · simp at h
        · simp at h
          exact ⟨brk, by simp [h]⟩
      · simp at h
    · simp only [execWalk, hb, if_false, Bool.false_eq_true] at hx
      rcases List.mem_append.1 hx with h | h
      · rcases r with _ | _
        · simp at h
        · simp at h
          exact ⟨brk, by simp [h]⟩
      · obtain ⟨brk2, hmem⟩ := ih x h
        exact ⟨brk2, List.mem_cons_of_mem _ hmem⟩

/-- Every decision of the freespace generator with the should_remove flag set
passes the condition filter and the complete only filter. -/
theorem freespaceDecisions_flag (re_i : String → String → Bool)
    (cfg : RemoveConfig) (ts : List TorrentInfo) :
    ∀ (need : ℚ) (t : TorrentInfo) (brk : Bool),
      (t, true, brk) ∈ freespaceDecisions re_i cfg need ts →
      matches_remove_condition re_i cfg t = true ∧
        matches_complateonly cfg t = true := by
  induction ts with
  | nil => intro need t brk h; simp [freespaceDecisions] at h
  | cons u ts ih =>
    intro need t brk h
    simp only [freespaceDecisions, List.mem_cons] at h
    rcases h with h | h
    · simp only [Prod.mk.injEq] at h
      obtain ⟨ht, hr, _⟩ := h
      subst ht
      have hr2 := hr.symm
      simp only [Bool.and_eq_true] at hr2
      exact ⟨hr2.1.2, hr2.2⟩
    · exact ih _ t brk h

/-- C3: under the freespace strategy, when the effective free space reaches
the target the removal set is empty; without samedata every removed torrent
passed the condition filter and the complete only filter, the walk having
decremented the need by each removed size and broken once the need is spent;
and on scenario S3, a 100 GB target with 80 GB free over completed torrents
of 10, 20, 30 and 50 GB in small_seeds order, exactly the 10 GB and the
20 GB torrents are removed. -/
theorem c3_freespace_strategy :
    (∀ re_i cfg free ts,
        cfg.strategy_value * 1024 ^ 3 ≤ effectiveFree re_i cfg free ts →
        remove_by_freespace re_i cfg (some free) ts = []) ∧
    (∀ re_i cfg fb ts x, cfg.samedata = false →
        x ∈ remove_by_freespace re_i cfg fb ts →
        matches_remove_condition re_i cfg x = true ∧
          matches_complateonly cfg x = true) ∧
    remove_by_freespace (fun _ _ => false) cfgS3 (some (80 * 1024 ^ 3))
      [tG 10, tG 20, tG 30, tG 50] = [tG 10, tG 20] := by
  refine ⟨?_, ?_, ?_⟩
  · intro re_i cfg free ts h
    simp only [remove_by_freespace]
    rw [if_pos h]
  · intro re_i cfg fb ts x hsd hx
    cases fb with
    | none => simp [remove_by_freespace] at hx
    | some free =>
      simp only [remove_by_freespace] at hx
      by_cases hle : cfg.strategy_value * 1024 ^ 3 ≤ effectiveFree re_i cfg free ts
      · rw [if_pos hle] at hx
        simp at hx
      · rw [if_neg hle] at hx
        rw [hsd] at hx
        simp only [execute_removal_strategy, if_false, Bool.false_eq_true,
          List.append_nil] at hx
        obtain ⟨brk, hmem⟩ := execWalk_sel_flag false _ x hx
        exact freespaceDecisions_flag re_i cfg ts _ x brk hmem
  · have hm : ∀ (re : String → String → Bool) (cfg : RemoveConfig) (t : TorrentInfo),
        cfg.strategy_pre_filter_by_condition = false → cfg.remove_mode = "strategy" →
        matches_remove_condition re cfg t = true := by
      intro re cfg t h1 h2
      unfold matches_remove_condition
      rw [if_neg (by rw [h1, h2]; decide)]
    have hc : ∀ (cfg : RemoveConfig) (t : TorrentInfo), cfg.complateonly = false →
        matches_complateonly cfg t = true := by
      intro cfg t h
      simp [matches_complateonly, h]
    norm_num [remove_by_freespace, effectiveFree, freespaceDecisions,
      execute_removal_strategy, execWalk, hm, hc, cfgS3, tG, baseTorrent]

/-- Witness for c3_freespace_strategy: with 200 GB free and a 100 GB target
nothing is removed. -/
theorem c3_freespace_strategy_witness :
    cfgS3.strategy_value * 1024 ^ 3 ≤
        effectiveFree (fun _ _ => false) cfgS3 (200 * 1024 ^ 3) [tG 10] ∧
      remove_by_freespace (fun _ _ => false) cfgS3 (some (200 * 1024 ^ 3)) [tG 10] = [] :=
  ⟨by norm_num [effectiveFree, cfgS3],
   c3_freespace_strategy.1 (fun _ _ => false) cfgS3 (200 * 1024 ^ 3) [tG 10]
     (by norm_num [effectiveFree, cfgS3])⟩

/-! ## C6: processed set and GC sweep -/

/-- The processed set after a pass holds the initial content together with
the target path of every visited entry whose suffix is tracked, whether or
not the entry was emitted. -/
theorem filter_func_snd (cfg : StrmConfig) (contains : String → Bool)
    (processed : List String) (e : AlistFileView) :
    (filter_func cfg true contains processed e).2 =
      if lowerStr e.suffix ∈ processFileSuffix cfg then
        computed_target_path cfg e.path e.suffix :: processed
      else processed := by
  by_cases hs : lowerStr e.suffix ∈ processFileSuffix cfg
  · by_cases hct : contains (computed_target_path cfg e.path e.suffix) = true <;>
      simp [filter_func, hs, hct]
  · simp [filter_func, hs]

/-- The processed set after a pass holds the initial content together with
the target path of every visited entry whose suffix is tracked, whether or
not the entry was emitted. -/
theorem producePass_processed (cfg : StrmConfig) (contains : String → Bool) :
    ∀ (es : List AlistFileView) (init : List String) (p : String),
      p ∈ (producePass cfg true contains init es).1 ↔
        p ∈ init ∨ ∃ e ∈ es, lowerStr e.suffix ∈ processFileSuffix cfg ∧
          p = computed_target_path cfg e.path e.suffix := by
  intro es
  induction es with
  | nil => intro init p; simp [producePass]
  | cons e es ih =>
    intro init p
    have hstep : (producePass cfg true contains init (e :: es)).1 =
        (producePass cfg true contains ((filter_func cfg true contains init e).2) es).1 := rfl
    by_cases hs : lowerStr e.suffix ∈ processFileSuffix cfg
    · rw [hstep, filter_func_snd, if_pos hs, ih]
      simp only [List.mem_cons]
      constructor
      · rintro ((h | h) | h)
        · exact Or.inr ⟨e, Or.inl rfl, hs, h⟩
        · exact Or.inl h
        · obtain ⟨u, hu, h1, h2⟩ := h
          exact Or.inr ⟨u, Or.inr hu, h1, h2⟩
      · rintro (h | h)
        · exact Or.inl (Or.inr h)
        · obtain ⟨u, hu, h1, h2⟩ := h
          rcases hu with hu2 | hu2
          · subst hu2
            exact Or.inl (Or.inl h2)
          · exact Or.inr ⟨u, hu2, h1, h2⟩
    · rw [hstep, filter_func_snd, if_neg hs, ih]
      constructor
      · rintro (h | h)
        · exact Or.inl h
        · obtain ⟨u, hu, h1, h2⟩ := h
          exact Or.inr ⟨u, List.mem_cons_of_mem _ hu, h1, h2⟩
      · rintro (h | h)
        · exact Or.inl h
        · obtain ⟨u, hu, h1, h2⟩ := h
          rcases List.mem_cons.1 hu with hu2 | hu2
          · subst hu2
            exact absurd h1 hs
          · exact Or.inr ⟨u, hu2, h1, h2⟩

/-- C6 counterexample: one media entry whose target already exists in the
cleaner is recorded in processed but not emitted, so the processed set is
not the set of target paths of the emitted entries. -/
theorem c6_processed_counterexample :
    (producePass cfgStrm true
        (fun p => decide (p = "/dst/a.strm")) [] [entryA]).1 = ["/dst/a.strm"] ∧
      (producePass cfgStrm true
        (fun p => decide (p = "/dst/a.strm")) [] [entryA]).2 = [] ∧
      (producePass cfgStrm true
          (fun p => decide (p = "/dst/a.strm")) [] [entryA]).1 ≠
        ((producePass cfgStrm true
          (fun p => decide (p = "/dst/a.strm")) [] [entryA]).2).map
            (fun e => computed_target_path cfgStrm e.path e.suffix) := by
  refine ⟨by decide, by decide, by decide⟩

/-- C6 amended: the processed set accumulated during traversal is the set of
target paths of every visited entry with a tracked suffix, including entries
skipped because their target already exists; the SetCleaner sweep deletes
exactly the filter content minus processed; and when the filter holds
exactly the tracked files on disk, the files surviving the sweep are exactly
the ones in processed or with an untracked suffix. -/
theorem c6_gc_sweep :
    (∀ cfg contains (es : List AlistFileView) (p : String),
        p ∈ (producePass cfg true contains [] es).1 ↔
          ∃ e ∈ es, lowerStr e.suffix ∈ processFileSuffix cfg ∧
            p = computed_target_path cfg e.path e.suffix) ∧
    (∀ (fs pr : List String) (x : String),
        x ∈ (clean_inviially fs pr).1 ↔ x ∈ fs ∧ x ∉ pr) ∧
    (∀ (disk fs pr : List String) (tracked : String → Bool),
        (∀ x, x ∈ fs ↔ x ∈ disk ∧ tracked x = true) →
        ∀ x, x ∈ diskAfterSweep disk fs pr ↔
          x ∈ disk ∧ (x ∈ pr ∨ tracked x = false)) := by
  refine ⟨?_, ?_, ?_⟩
  · intro cfg contains es p
    rw [producePass_processed]
    simp
  · intro fs pr x
    simp [clean_inviially]
  · intro disk fs pr tracked htrack x
    simp only [diskAfterSweep, clean_inviially, List.mem_filter,
      decide_eq_true_iff, List.mem_filter, not_and, not_not]
    constructor
    · rintro ⟨hd, h⟩
      refine ⟨hd, ?_⟩
      by_cases hp : x ∈ pr
      · exact Or.inl hp
      · by_cases ht : tracked x = true
        · exact absurd (h ((htrack x).2 ⟨hd, ht⟩)) (by simpa using hp)
        · exact Or.inr (by simpa using ht)
    · rintro ⟨hd, h⟩
      refine ⟨hd, fun hf => ?_⟩
      rcases h with h | h
      · simpa using h
      · exact absurd ((htrack x).1 hf).2 (by simp [h])

/-- Witness for c6_gc_sweep: a one file disk whose filter tracks it and whose
processed set keeps it. -/
theorem c6_gc_sweep_witness :
    (∀ x, x ∈ ["/dst/a.strm"] ↔
        x ∈ ["/dst/a.strm"] ∧ (fun _ : String => true) x = true) ∧
      ("/dst/a.strm" ∈ diskAfterSweep ["/dst/a.strm"] ["/dst/a.strm"] ["/dst/a.strm"] ↔
        "/dst/a.strm" ∈ ["/dst/a.strm"] ∧
          ("/dst/a.strm" ∈ ["/dst/a.strm"] ∨ (fun _ : String => true) "/dst/a.strm" = false)) :=
  ⟨fun x => by simp,
   c6_gc_sweep.2.2 ["/dst/a.strm"] ["/dst/a.strm"] ["/dst/a.strm"]
     (fun _ => true) (fun x => by simp) "/dst/a.strm"⟩

/-! ## C7: traversal depth bound and exactly once visits -/

theorem frontierSize_append (l1 l2 : List (RTree × Int)) :
    frontierSize (l1 ++ l2) = frontierSize l1 + frontierSize l2 := by
  induction l1 with
  | nil => simp [frontierSize]
  | cons a l ih => cases a; simp [frontierSize, ih]; omega

theorem frontierSize_reverse (l : List (RTree × Int)) :
    frontierSize l.reverse = frontierSize l := by
  induction l with
  | nil => rfl
  | cons a l ih => cases a; simp [frontierSize, frontierSize_append, ih]; omega

theorem frontierSize_map (l : List RTree) (d : Int) :
    frontierSize (l.map (fun c => (c, d))) = forestSize l := by
  induction l with
  | nil => simp [frontierSize, forestSize]
  | cons x xs ih => simp [frontierSize, forestSize, ih]

theorem processDir_frontier_lt (f : String → Bool) (d : Int) (t : RTree)
    (dep : Int) : frontierSize (processDir f d t dep).2 < treeSize t := by
  cases t with
  | node fs ds =>
    simp only [processDir]
    split
    · rw [frontierSize_map]; simp [treeSize]
    · simp [frontierSize, treeSize]

theorem treeSize_le_forest {c : RTree} {ds : List RTree} (h : c ∈ ds) :
    treeSize c ≤ forestSize ds := by
  induction ds with
  | nil => simp at h
  | cons t ts ih =>
    rcases List.mem_cons.1 h with h2 | h2
    · subst h2; simp [forestSize]
    · calc treeSize c ≤ forestSize ts := ih h2
        _ ≤ forestSize (t :: ts) := by simp [forestSize]

/-- Depth invariant of the enqueue condition: with a nonnegative bound, every
subdirectory kept by process_dir carries a depth within the bound. -/
theorem processDir_depth_le (f : String → Bool) (d : Int) (t : RTree)
    (dep : Int) (hd : 0 ≤ d) : ∀ p ∈ (processDir f d t dep).2, p.2 ≤ d := by
  cases t with
  | node fs ds =>
    intro p hp
    simp only [processDir] at hp
    split at hp
    · rename_i hcond
      obtain ⟨c, _, hc⟩ := List.mem_map.1 hp
      rcases hcond with h | h
      · omega
      · rw [← hc]; exact h
    · simp at hp

theorem dfsTraversal_append_aux (f : String → Bool) (d : Int) :
    ∀ (n : Nat) (s1 s2 : List (RTree × Int)), frontierSize s1 < n →
      dfsTraversal f d (s1 ++ s2) =
        dfsTraversal f d s1 ++ dfsTraversal f d s2 := by
  intro n
  induction n using Nat.strong_induction_on with
  | _ n ih =>
    intro s1 s2 hn
    match s1 with
    | [] => simp [dfsTraversal]
    | (t, dep) :: rest =>
      have hlt : frontierSize ((processDir f d t dep).2.reverse ++ rest) <
          frontierSize ((t, dep) :: rest) := by
        rw [frontierSize_append, frontierSize_reverse]
        have := processDir_frontier_lt f d t dep
        simp only [frontierSize]
        omega
      rw [List.cons_append]
      simp only [dfsTraversal]
      rw [show (processDir f d t dep).2.reverse ++ (rest ++ s2) =
            ((processDir f d t dep).2.reverse ++ rest) ++ s2 from
          (List.append_assoc _ _ _).symm]
      rw [ih (frontierSize ((t, dep) :: rest)) hn _ s2 hlt, List.append_assoc]

/-- The stack of the dfs loop splits: processing a concatenated stack emits
the results of the two parts in order. -/
theorem dfs_append (f : String → Bool) (d : Int) (s1 s2 : List (RTree × Int)) :
    dfsTraversal f d (s1 ++ s2) = dfsTraversal f d s1 ++ dfsTraversal f d s2 :=
  dfsTraversal_append_aux f d (frontierSize s1 + 1) s1 s2 (Nat.lt_succ_self _)

theorem dfs_flatMap (f : String → Bool) (d : Int) :
    ∀ stack : List (RTree × Int),
      dfsTraversal f d stack = stack.flatMap (fun p => dfsTraversal f d [p]) := by
  intro stack
  induction stack with
  | nil => simp [dfsTraversal]
  | cons p rest ih =>
    rw [show p :: rest = [p] ++ rest from rfl, dfs_append, ih]
    rfl

theorem allFilesForest_flatMap (ds : List RTree) (dep : Int) :
    allFilesForest ds dep = ds.flatMap (fun c => allFiles c dep) := by
  induction ds with
  | nil => rfl
  | cons t ts ih => simp [allFilesForest, ih]

theorem filter_flatMap_eq {α β : Type} (l : List α) (f : α → List β)
    (p : β → Bool) :
    (l.flatMap f).filter p = l.flatMap (fun x => (f x).filter p) := by
  induction l with
  | nil => rfl
  | cons a l ih => simp [List.filter_append, ih]

theorem allFilesForest_depth_le :
    ∀ (n : Nat) (l : List RTree) (dep : Int), forestSize l < n →
      ∀ p ∈ allFilesForest l dep, dep ≤ p.2 := by
  intro n
  induction n using Nat.strong_induction_on with
  | _ n ih =>
    intro l dep hn p hp
    match l with
    | [] => simp [allFilesForest] at hp
    | t :: ts =>
      simp only [allFilesForest, List.mem_append] at hp
      rcases hp with hp | hp
      · cases t with
        | node fs ds =>
          simp only [allFiles, List.mem_append] at hp
          rcases hp with hp | hp
          · obtain ⟨x, _, hx⟩ := List.mem_map.1 hp
            rw [← hx]
          · have h1 : forestSize ds < treeSize (.node fs ds) := by
              simp [treeSize]
            have h2 : treeSize (.node fs ds) < n := by
              simp only [forestSize] at hn
              omega
            have := ih (treeSize (.node fs ds)) h2 ds (dep + 1) h1 p hp
            omega
      · have h1 : treeSize t ≥ 1 := by
          cases t; simp [treeSize]
        have h2 : forestSize (t :: ts) < n := hn
        have h3 : forestSize ts < forestSize (t :: ts) := by
          simp only [forestSize]; omega
        exact ih (forestSize (t :: ts)) h2 ts dep h3 p hp

theorem allFiles_depth_le (t : RTree) (dep : Int) :
    ∀ p ∈ allFiles t dep, dep ≤ p.2 := by
  intro p hp
  have : p ∈ allFilesForest [t] dep := by
    simp [allFilesForest, hp]
  exact allFilesForest_depth_le (forestSize [t] + 1) [t] dep
    (Nat.lt_succ_self _) p this

theorem files_map_filter (f : String → Bool) (d : Int) (fs : List String)
    (dep : Int) (h : d = -1 ∨ dep ≤ d) :
    (fs.map (fun x => (x, dep))).filter
        (fun p => decide (d = -1 ∨ p.2 ≤ d) && f p.1) =
      (fs.filter f).map (fun x => (x, dep)) := by
  rw [List.filter_map]
  congr 1
  apply List.filter_congr
  intro x _
  simp only [Function.comp_apply, decide_eq_true h, Bool.true_and]

theorem dfs_single_perm (f : String → Bool) (d : Int) :
    ∀ (n : Nat) (t : RTree) (dep : Int), treeSize t < n → (d = -1 ∨ dep ≤ d) →
      (dfsTraversal f d [(t, dep)]).Perm
        ((allFiles t dep).filter
          (fun p => decide (d = -1 ∨ p.2 ≤ d) && f p.1)) := by
  intro n
  induction n using Nat.strong_induction_on with
  | _ n ih =>
    intro t dep hn hdep
    cases t with
    | node fs ds =>
      have hstep : dfsTraversal f d [(.node fs ds, dep)] =
          (processDir f d (.node fs ds) dep).1 ++
            dfsTraversal f d ((processDir f d (.node fs ds) dep).2.reverse) := by
        simp [dfsTraversal]
      rw [hstep]
      have hfiles : (processDir f d (.node fs ds) dep).1 =
          (fs.filter f).map (fun x => (x, dep)) := by
        simp [processDir]
      rw [allFiles, List.filter_append, files_map_filter f d fs dep hdep, hfiles]
      refine List.Perm.append_left _ ?_
      by_cases hg : d = -1 ∨ dep + 1 ≤ d
      · have hsub : (processDir f d (.node fs ds) dep).2 =
            ds.map (fun c => (c, dep + 1)) := by
          simp [processDir, hg]
        rw [hsub, dfs_flatMap]
        refine ((List.reverse_perm _).flatMap_right _).trans ?_
        rw [List.flatMap_map]
        rw [allFilesForest_flatMap, filter_flatMap_eq]
        refine List.Perm.flatMap_left _ ?_
        intro c hc
        have h2 := treeSize_le_forest hc
        have h3 : forestSize ds < treeSize (.node fs ds) := by simp [treeSize]
        exact ih (treeSize c + 1) (by omega) c (dep + 1) (Nat.lt_succ_self _) hg
      · have hsub : (processDir f d (.node fs ds) dep).2 = [] := by
          simp only [processDir]
          rw [if_neg hg]
        rw [hsub]
        have hnil : (allFilesForest ds (dep + 1)).filter
            (fun p => decide (d = -1 ∨ p.2 ≤ d) && f p.1) = [] := by
          rw [List.filter_eq_nil_iff]
          intro p hp
          have := allFilesForest_depth_le (forestSize ds + 1) ds (dep + 1)
            (Nat.lt_succ_self _) p hp
          have hfalse : ¬(d = -1 ∨ p.2 ≤ d) := by
            push_neg
            constructor
            · intro hd1
              exact hg (Or.inl hd1)
            · have : ¬(dep + 1 ≤ d) := fun hc => hg (Or.inr hc)
              omega
          simp [hfalse]
        rw [hnil]
        simp [dfsTraversal]

theorem bfsAux_perm (f : String → Bool) (d : Int) :
    ∀ (cur next : List (RTree × Int)),
      (bfsAux f d cur next).Perm
        (dfsTraversal f d cur ++ dfsTraversal f d next) := by
  intro cur next
  induction cur, next using bfsAux.induct f d with
  | case1 => simp [bfsAux, dfsTraversal]
  | case2 q qs ih =>
    have hstep : bfsAux f d [] (q :: qs) = bfsAux f d (q :: qs) [] := by
      simp [bfsAux]
    rw [hstep]
    refine ih.trans ?_
    simp [dfsTraversal]
  | case3 t dep rest next r ih =>
    have hstep : bfsAux f d ((t, dep) :: rest) next =
        (processDir f d t dep).1 ++
          bfsAux f d rest (next ++ (processDir f d t dep).2) := by
      simp [bfsAux]
    rw [hstep]
    have hdfs : dfsTraversal f d ((t, dep) :: rest) =
        (processDir f d t dep).1 ++
          (dfsTraversal f d ((processDir f d t dep).2.reverse) ++
            dfsTraversal f d rest) := by
      have : dfsTraversal f d ((t, dep) :: rest) =
          (processDir f d t dep).1 ++
            dfsTraversal f d ((processDir f d t dep).2.reverse ++ rest) := by
        simp [dfsTraversal]
      rw [this, dfs_append]
    rw [hdfs]
    refine (ih.append_left _).trans ?_
    rw [dfs_append, List.append_assoc]
    refine List.Perm.append_left _ ?_
    have hrev : (dfsTraversal f d ((processDir f d t dep).2.reverse)).Perm
        (dfsTraversal f d (processDir f d t dep).2) := by
      rw [dfs_flatMap f d ((processDir f d t dep).2.reverse),
        dfs_flatMap f d (processDir f d t dep).2]
      exact (List.reverse_perm _).flatMap_right _
    rw [← List.append_assoc]
    refine List.perm_append_comm.trans ?_
    simpa [List.append_assoc] using
      hrev.symm.append_right (dfsTraversal f d rest ++ dfsTraversal f d next)

/-- C7: with a nonnegative depth bound every subdirectory kept for the
frontier carries a depth within the bound; and for both traversal modes,
starting at the root with depth 0 and a bound that is -1 or nonnegative, the
emitted entries are a permutation of the files of the tree at depth within
the bound that pass the filter, each such file visited exactly once and no
deeper entry emitted. -/
theorem c7_traversal_depth_once :
    (∀ (f : String → Bool) (d : Int) (t : RTree) (dep : Int), 0 ≤ d →
        ∀ p ∈ (processDir f d t dep).2, p.2 ≤ d) ∧
    (∀ (f : String → Bool) (d : Int) (t : RTree), d = -1 ∨ 0 ≤ d →
        (dfsTraversal f d [(t, 0)]).Perm
          ((allFiles t 0).filter
            (fun p => decide (d = -1 ∨ p.2 ≤ d) && f p.1))) ∧
    (∀ (f : String → Bool) (d : Int) (t : RTree), d = -1 ∨ 0 ≤ d →
        (bfsTraversal f d [(t, 0)]).Perm
          ((allFiles t 0).filter
            (fun p => decide (d = -1 ∨ p.2 ≤ d) && f p.1))) := by
  refine ⟨processDir_depth_le, ?_, ?_⟩
  · intro f d t hd
    exact dfs_single_perm f d (treeSize t + 1) t 0 (Nat.lt_succ_self _) hd
  · intro f d t hd
    have h1 : (bfsTraversal f d [(t, 0)]).Perm
        (dfsTraversal f d [(t, 0)] ++ dfsTraversal f d []) :=
      bfsAux_perm f d [(t, 0)] []
    have h2 : dfsTraversal f d ([] : List (RTree × Int)) = [] := by
      simp [dfsTraversal]
    rw [h2, List.append_nil] at h1
    exact h1.trans
      (dfs_single_perm f d (treeSize t + 1) t 0 (Nat.lt_succ_self _) hd)

/-- Witness for c7_traversal_depth_once: the bfs pass over a three level
tree with bound 1. -/
theorem c7_traversal_depth_once_witness :
    ((1 : Int) = -1 ∨ 0 ≤ (1 : Int)) ∧
      (bfsTraversal (fun _ => true) 1 [(tree7, 0)]).Perm
        ((allFiles tree7 0).filter
          (fun p => decide ((1 : Int) = -1 ∨ p.2 ≤ 1) && (fun _ => true) p.1)) :=
  ⟨Or.inr (by decide),
   c7_traversal_depth_once.2.2 (fun _ => true) 1 tree7 (Or.inr (by decide))⟩

/-! ## C8: counting Bloom filter -/

theorem getD_set_eq_ite (l : List Nat) (i j v d : Nat) :
    (l.set i v).getD j d = if i = j ∧ i < l.length then v else l.getD j d := by
  rw [List.getD_eq_getElem?_getD, List.getElem?_set, List.getD_eq_getElem?_getD]
  by_cases hij : i = j
  · by_cases hlen : i < l.length
    · rw [if_pos hij, if_pos hlen, if_pos ⟨hij, hlen⟩]
      rfl
    · rw [if_pos hij, if_neg hlen, if_neg (fun hc => hlen hc.2)]
      rw [List.getElem?_eq_none (by omega : l.length ≤ j)]
  · rw [if_neg hij, if_neg (fun hc => hij hc.1)]

theorem bumpCounters_length (ind : List Nat) (δ : Int) :
    ∀ c : List Nat,
      (ind.foldl (fun c idx => setCounter c idx ((c.getD idx 0 : Int) + δ)) c).length
        = c.length := by
  induction ind with
  | nil => intro c; rfl
  | cons idx rest ih =>
    intro c
    rw [List.foldl_cons, ih]
    simp [setCounter]

theorem count_cons_eq (a b : Nat) (l : List Nat) :
    (b :: l).count a = l.count a + if a = b then 1 else 0 := by
  rw [List.count_cons]
  by_cases h : a = b
  · rw [if_pos (beq_iff_eq.mpr h.symm), if_pos h]
  · rw [if_neg (fun hc : (b == a) = true => h (beq_iff_eq.mp hc).symm), if_neg h]

theorem bumpCounters_add (ind : List Nat) :
    ∀ c : List Nat,
      (∀ i ∈ ind, i < c.length) →
      (∀ i, c.getD i 0 + ind.count i ≤ 255) →
      ∀ i, (ind.foldl (fun c idx => setCounter c idx ((c.getD idx 0 : Int) + 1)) c).getD i 0
        = c.getD i 0 + ind.count i := by
  induction ind with
  | nil => intro c _ _ i; simp
  | cons idx rest ih =>
    intro c hin hbound i
    have hidx : idx < c.length := hin idx (List.mem_cons_self idx rest)
    have hle : c.getD idx 0 + 1 ≤ 255 := by
      have hb := hbound idx
      rw [count_cons_eq, if_pos rfl] at hb
      omega
    have hstep : setCounter c idx ((c.getD idx 0 : Int) + 1) =
        c.set idx (c.getD idx 0 + 1) := by
      simp only [setCounter]
      have h255 : ((c.getD idx 0 : Int) + 1) ≤ 255 := by exact_mod_cast hle
      rw [min_eq_left h255,
        max_eq_right (by omega : (0 : Int) ≤ (c.getD idx 0 : Int) + 1)]
      congr 1
    have hlen2 : (c.set idx (c.getD idx 0 + 1)).length = c.length := by simp
    have hset : ∀ j, (c.set idx (c.getD idx 0 + 1)).getD j 0 =
        c.getD j 0 + if idx = j then 1 else 0 := by
      intro j
      rw [getD_set_eq_ite]
      by_cases hj : idx = j
      · rw [if_pos ⟨hj, hidx⟩, if_pos hj, ← hj]
      · rw [if_neg (fun hc => hj hc.1), if_neg hj]
        omega
    have hin2 : ∀ i ∈ rest, i < (c.set idx (c.getD idx 0 + 1)).length := by
      intro i hi
      rw [hlen2]
      exact hin i (List.mem_cons_of_mem _ hi)
    have hbound2 : ∀ i, (c.set idx (c.getD idx 0 + 1)).getD i 0 + rest.count i ≤ 255 := by
      intro i
      rw [hset i]
      have hb := hbound i
      rw [count_cons_eq] at hb
      by_cases hj : i = idx
      · rw [if_pos hj] at hb
        rw [if_pos hj.symm]
        omega
      · rw [if_neg hj] at hb
        rw [if_neg (fun hc => hj hc.symm)]
        omega
    rw [List.foldl_cons, hstep, ih _ hin2 hbound2 i, hset i, count_cons_eq]
    by_cases hj : i = idx
    · rw [if_pos hj, if_pos hj.symm]
      omega
    · rw [if_neg hj, if_neg (fun hc => hj hc.symm)]
      omega

theorem bumpCounters_sub (ind : List Nat) :
    ∀ c : List Nat,
      (∀ i ∈ ind, i < c.length) →
      (∀ i, c.getD i 0 ≤ 255) →
      (∀ i, ind.count i ≤ c.getD i 0) →
      ∀ i, (ind.foldl (fun c idx => setCounter c idx ((c.getD idx 0 : Int) + (-1))) c).getD i 0
        = c.getD i 0 - ind.count i := by
  induction ind with
  | nil => intro c _ _ _ i; simp
  | cons idx rest ih =>
    intro c hin hbound hge i
    have hidx : idx < c.length := hin idx (List.mem_cons_self idx rest)
    have hpos : 1 ≤ c.getD idx 0 := by
      have hg := hge idx
      rw [count_cons_eq, if_pos rfl] at hg
      omega
    have hstep : setCounter c idx ((c.getD idx 0 : Int) + (-1)) =
        c.set idx (c.getD idx 0 - 1) := by
      simp only [setCounter]
      have h255 : ((c.getD idx 0 : Int) + (-1)) ≤ 255 := by
        have := hbound idx
        omega
      rw [min_eq_left h255,
        max_eq_right (by omega : (0 : Int) ≤ (c.getD idx 0 : Int) + (-1))]
      congr 1
      omega
    have hlen2 : (c.set idx (c.getD idx 0 - 1)).length = c.length := by simp
    have hset : ∀ j, (c.set idx (c.getD idx 0 - 1)).getD j 0 =
        c.getD j 0 - if idx = j then 1 else 0 := by
      intro j
      rw [getD_set_eq_ite]
      by_cases hj : idx = j
      · rw [if_pos ⟨hj, hidx⟩, if_pos hj, ← hj]
      · rw [if_neg (fun hc => hj hc.1), if_neg hj]
        omega
    have hin2 : ∀ i ∈ rest, i < (c.set idx (c.getD idx 0 - 1)).length := by
      intro i hi
      rw [hlen2]
      exact hin i (List.mem_cons_of_mem _ hi)
    have hbound2 : ∀ i, (c.set idx (c.getD idx 0 - 1)).getD i 0 ≤ 255 := by
      intro i
      rw [hset i]
      have := hbound i
      omega
    have hge2 : ∀ i, rest.count i ≤ (c.set idx (c.getD idx 0 - 1)).getD i 0 := by
      intro i
      rw [hset i]
      have hg := hge i
      rw [count_cons_eq] at hg
      by_cases hj : i = idx
      · rw [if_pos hj] at hg
        rw [if_pos hj.symm]
        omega
      · rw [if_neg hj] at hg
        rw [if_neg (fun hc => hj hc.symm)]
        omega
    rw [List.foldl_cons, hstep, ih _ hin2 hbound2 hge2 i, hset i, count_cons_eq]
    have hg := hge i
    rw [count_cons_eq] at hg
    by_cases hj : i = idx
    · have hj2 : idx = i := hj.symm
      rw [if_pos hj] at hg
      rw [if_pos hj2, if_pos hj]
      omega
    · rw [if_neg hj] at hg
      rw [if_neg (fun hc => hj hc.symm), if_neg hj]
      omega

theorem bloomIndices_lt {α : Type} (h : α → Nat × Nat) (x : α) (m k : Nat)
    (hm : 0 < m) : ∀ i ∈ bloomIndices h x m k, i < m := by
  intro i hi
  obtain ⟨j, _, hj⟩ := List.mem_map.1 hi
  rw [← hj]
  exact Nat.mod_lt _ hm

theorem probeCount_cons {α : Type} (h : α → Nat × Nat) (m k : Nat) (x : α)
    (S : List α) (i : Nat) :
    probeCount h m k (x :: S) i =
      (bloomIndices h x m k).count i + probeCount h m k S i := by
  simp [probeCount, List.flatMap_cons, List.count_append]

theorem probeCount_nil {α : Type} (h : α → Nat × Nat) (m k : Nat) (i : Nat) :
    probeCount h m k ([] : List α) i = 0 := by
  simp [probeCount]

theorem bloomAdd_concat {α : Type} (h : α → Nat × Nat)
    (init : List BloomLayer) (L : BloomLayer) (x : α) :
    bloomAdd h (init ++ [L]) x =
      init ++ [layerUpdate L (bloomIndices h x L.m L.k) 1] := by
  simp [bloomAdd]

theorem bloomAddAll_concat_shape {α : Type} (h : α → Nat × Nat) (S : List α) :
    ∀ (init : List BloomLayer) (L : BloomLayer),
      bloomAddAll h (init ++ [L]) S =
        init ++ [S.foldl (fun l x => layerUpdate l (bloomIndices h x l.m l.k) 1) L] := by
  induction S with
  | nil => intro init L; rfl
  | cons x S ih =>
    intro init L
    have h1 : bloomAddAll h (init ++ [L]) (x :: S) =
        bloomAddAll h (bloomAdd h (init ++ [L]) x) S := rfl
    rw [h1, bloomAdd_concat, ih]
    rfl

theorem layerFold_shape {α : Type} (h : α → Nat × Nat) (S : List α) :
    ∀ L : BloomLayer,
      (S.foldl (fun l x => layerUpdate l (bloomIndices h x l.m l.k) 1) L).m = L.m ∧
      (S.foldl (fun l x => layerUpdate l (bloomIndices h x l.m l.k) 1) L).k = L.k ∧
      (S.foldl (fun l x => layerUpdate l (bloomIndices h x l.m l.k) 1) L).counters.length
        = L.counters.length := by
  induction S with
  | nil => intro L; exact ⟨rfl, rfl, rfl⟩
  | cons x S ih =>
    intro L
    obtain ⟨h1, h2, h3⟩ := ih (layerUpdate L (bloomIndices h x L.m L.k) 1)
    refine ⟨h1, h2, ?_⟩
    rw [List.foldl_cons, h3]
    exact bumpCounters_length _ _ _

theorem layerFold_exact {α : Type} (h : α → Nat × Nat) (S : List α) :
    ∀ L : BloomLayer, 0 < L.m → L.counters.length = L.m →
      (∀ i, L.counters.getD i 0 + probeCount h L.m L.k S i ≤ 255) →
      (S.foldl (fun l x => layerUpdate l (bloomIndices h x l.m l.k) 1) L).element_count
          = L.element_count + S.length ∧
      (∀ i, (S.foldl (fun l x => layerUpdate l (bloomIndices h x l.m l.k) 1) L).counters.getD i 0
          = L.counters.getD i 0 + probeCount h L.m L.k S i) := by
  induction S with
  | nil =>
    intro L _ _ _
    refine ⟨by simp, fun i => by simp [probeCount_nil]⟩
  | cons x S ih =>
    intro L hm hlen hbound
    have hindlt : ∀ i ∈ bloomIndices h x L.m L.k, i < L.counters.length := by
      rw [hlen]
      exact bloomIndices_lt h x L.m L.k hm
    have hboundx : ∀ i, L.counters.getD i 0 + (bloomIndices h x L.m L.k).count i ≤ 255 := by
      intro i
      have := hbound i
      rw [probeCount_cons] at this
      omega
    have hcnt : ∀ i, (layerUpdate L (bloomIndices h x L.m L.k) 1).counters.getD i 0
        = L.counters.getD i 0 + (bloomIndices h x L.m L.k).count i := by
      intro i
      exact bumpCounters_add _ _ hindlt hboundx i
    have hm2 : (layerUpdate L (bloomIndices h x L.m L.k) 1).m = L.m := rfl
    have hk2 : (layerUpdate L (bloomIndices h x L.m L.k) 1).k = L.k := rfl
    have hlen2 : (layerUpdate L (bloomIndices h x L.m L.k) 1).counters.length = L.m := by
      rw [← hlen]
      exact bumpCounters_length _ _ _
    have hbound2 : ∀ i,
        (layerUpdate L (bloomIndices h x L.m L.k) 1).counters.getD i 0 +
          probeCount h L.m L.k S i ≤ 255 := by
      intro i
      rw [hcnt i]
      have := hbound i
      rw [probeCount_cons] at this
      omega
    obtain ⟨hec, hcn⟩ := ih (layerUpdate L (bloomIndices h x L.m L.k) 1)
      (by rw [hm2]; exact hm) (by rw [hm2]; exact hlen2) (by rw [hm2, hk2]; exact hbound2)
    constructor
    · rw [List.foldl_cons, hec]
      simp only [layerUpdate, List.length_cons]
      push_cast
      omega
    · intro i
      rw [List.foldl_cons, hcn i, hm2, hk2, hcnt i, probeCount_cons]
      omega

theorem setCounter_inc_pos (c : List Nat) (idx i : Nat)
    (hpos : 0 < c.getD i 0 ∨ (i = idx ∧ idx < c.length)) :
    0 < (setCounter c idx ((c.getD idx 0 : Int) + 1)).getD i 0 := by
  have hval : 0 < (max 0 (min ((c.getD idx 0 : Int) + 1) 255)).toNat := by
    have h1 : (1 : Int) ≤ min ((c.getD idx 0 : Int) + 1) 255 :=
      le_min (by omega) (by omega)
    have h2 : (1 : Int) ≤ max 0 (min ((c.getD idx 0 : Int) + 1) 255) :=
      le_trans h1 (le_max_right _ _)
    omega
  simp only [setCounter]
  rw [getD_set_eq_ite]
  rcases hpos with hp | ⟨heq, hlt⟩
  · by_cases hc : idx = i ∧ idx < c.length
    · rw [if_pos hc]; exact hval
    · rw [if_neg hc]; exact hp
  · rw [if_pos ⟨heq.symm, hlt⟩]; exact hval

theorem bumpCounters_pos (ind : List Nat) :
    ∀ (c : List Nat) (i : Nat), 0 < c.getD i 0 →
      0 < (ind.foldl (fun c idx => setCounter c idx ((c.getD idx 0 : Int) + 1)) c).getD i 0 := by
  induction ind with
  | nil => intro c i hp; exact hp
  | cons idx rest ih =>
    intro c i hp
    rw [List.foldl_cons]
    exact ih _ i (setCounter_inc_pos c idx i (Or.inl hp))

theorem bumpCounters_mem_pos (ind : List Nat) :
    ∀ (c : List Nat) (i : Nat), i ∈ ind → i < c.length →
      0 < (ind.foldl (fun c idx => setCounter c idx ((c.getD idx 0 : Int) + 1)) c).getD i 0 := by
  induction ind with
  | nil => intro c i hi _; simp at hi
  | cons idx rest ih =>
    intro c i hi hlen
    rw [List.foldl_cons]
    rcases List.mem_cons.1 hi with heq | hmem
    · exact bumpCounters_pos rest _ i
        (setCounter_inc_pos c idx i (Or.inr ⟨heq, heq ▸ hlen⟩))
    · refine ih _ i hmem ?_
      simp only [setCounter]
      simpa using hlen

theorem layerFold_pos {α : Type} (h : α → Nat × Nat) (S : List α) :
    ∀ (L : BloomLayer) (i : Nat), 0 < L.counters.getD i 0 →
      0 < (S.foldl (fun l x => layerUpdate l (bloomIndices h x l.m l.k) 1) L).counters.getD i 0 := by
  induction S with
  | nil => intro L i hp; exact hp
  | cons x S ih =>
    intro L i hp
    rw [List.foldl_cons]
    refine ih _ i ?_
    simp only [layerUpdate]
    exact bumpCounters_pos _ _ i hp

/-- No false negatives: after any sequence of adds containing x, contains x
answers true, saturation or not. -/
theorem bloom_no_false_negative {α : Type} (h : α → Nat × Nat)
    (init : List BloomLayer) (L : BloomLayer) (S : List α) (x : α)
    (hm : 0 < L.m) (hlen : L.counters.length = L.m) (hx : x ∈ S) :
    bloomContains h (bloomAddAll h (init ++ [L]) S) x = true := by
  obtain ⟨S1, S2, rfl⟩ := List.append_of_mem hx
  rw [bloomAddAll_concat_shape]
  have hsplit : (S1 ++ x :: S2).foldl
      (fun l x => layerUpdate l (bloomIndices h x l.m l.k) 1) L =
      S2.foldl (fun l x => layerUpdate l (bloomIndices h x l.m l.k) 1)
        (layerUpdate (S1.foldl (fun l x => layerUpdate l (bloomIndices h x l.m l.k) 1) L)
          (bloomIndices h x
            (S1.foldl (fun l x => layerUpdate l (bloomIndices h x l.m l.k) 1) L).m
            (S1.foldl (fun l x => layerUpdate l (bloomIndices h x l.m l.k) 1) L).k) 1) := by
    rw [List.foldl_append, List.foldl_cons]
  obtain ⟨hm1, hk1, hlen1⟩ := layerFold_shape h S1 L
  set La := S1.foldl (fun l x => layerUpdate l (bloomIndices h x l.m l.k) 1) L with hLa
  set Lb := layerUpdate La (bloomIndices h x La.m La.k) 1 with hLb
  set Lf := S2.foldl (fun l x => layerUpdate l (bloomIndices h x l.m l.k) 1) Lb with hLf
  obtain ⟨hmb, hkb, hlenb⟩ : Lb.m = La.m ∧ Lb.k = La.k ∧
      Lb.counters.length = La.counters.length := by
    refine ⟨rfl, rfl, ?_⟩
    simp only [hLb, layerUpdate]
    exact bumpCounters_length _ _ _
  obtain ⟨hmf, hkf, hlenf⟩ := layerFold_shape h S2 Lb
  have hcheck : layerCheck Lf (bloomIndices h x Lf.m Lf.k) = true := by
    rw [layerCheck, List.all_eq_true]
    intro idx hidx
    refine decide_eq_true ?_
    have hidx2 : idx ∈ bloomIndices h x La.m La.k := by
      rw [hmf, hkf, hmb, hkb] at hidx
      exact hidx
    have hlt : idx < La.counters.length := by
      rw [hlen1, hlen]
      refine bloomIndices_lt h x L.m L.k hm idx ?_
      rw [hm1, hk1] at hidx2
      exact hidx2
    have hposb : 0 < Lb.counters.getD idx 0 := by
      simp only [hLb, layerUpdate]
      exact bumpCounters_mem_pos _ _ idx hidx2 hlt
    exact layerFold_pos h S2 Lb idx hposb
  rw [hsplit]
  have hrev : (init ++ [Lf]).reverse = Lf :: init.reverse := by simp
  rw [bloomContains, hrev, List.any_cons, hcheck]
  rfl

theorem bloomRemove_concat {α : Type} (h : α → Nat × Nat)
    (init : List BloomLayer) (L : BloomLayer) (x : α)
    (hcheck : layerCheck L (bloomIndices h x L.m L.k) = true) :
    bloomRemove h (init ++ [L]) x =
      some (init ++ [layerUpdate L (bloomIndices h x L.m L.k) (-1)]) := by
  rw [bloomRemove]
  have h1 : (init ++ [L]).reverse = L :: init.reverse := by simp
  rw [h1, removeRev, if_pos hcheck]
  simp

theorem bloomRemoveAll_concat {α : Type} (h : α → Nat × Nat) (R : List α) :
    ∀ (init : List BloomLayer) (L : BloomLayer),
      0 < L.m → L.counters.length = L.m →
      (∀ i, L.counters.getD i 0 ≤ 255) →
      (∀ i, probeCount h L.m L.k R i ≤ L.counters.getD i 0) →
      ∃ L2 : BloomLayer,
        bloomRemoveAll h (init ++ [L]) R = some (init ++ [L2]) ∧
        L2.m = L.m ∧ L2.k = L.k ∧ L2.counters.length = L.counters.length ∧
        L2.element_count = L.element_count - R.length ∧
        (∀ i, L2.counters.getD i 0 = L.counters.getD i 0 - probeCount h L.m L.k R i) := by
  induction R with
  | nil =>
    intro init L _ _ _ _
    exact ⟨L, by simp [bloomRemoveAll], rfl, rfl, rfl, by simp,
      fun i => by simp [probeCount_nil]⟩
  | cons x R ih =>
    intro init L hm hlen hb255 hinv
    have hcheck : layerCheck L (bloomIndices h x L.m L.k) = true := by
      rw [layerCheck, List.all_eq_true]
      intro idx hidx
      refine decide_eq_true ?_
      have h1 := hinv idx
      rw [probeCount_cons] at h1
      have h2 : 0 < (bloomIndices h x L.m L.k).count idx := List.count_pos_iff.2 hidx
      omega
    have hstep : bloomRemoveAll h (init ++ [L]) (x :: R) =
        bloomRemoveAll h (init ++ [layerUpdate L (bloomIndices h x L.m L.k) (-1)]) R := by
      rw [bloomRemoveAll, List.foldlM_cons, bloomRemove_concat h init L x hcheck]
      rfl
    have hindlt : ∀ i ∈ bloomIndices h x L.m L.k, i < L.counters.length := by
      rw [hlen]
      exact bloomIndices_lt h x L.m L.k hm
    have hgecnt : ∀ i, (bloomIndices h x L.m L.k).count i ≤ L.counters.getD i 0 := by
      intro i
      have h1 := hinv i
      rw [probeCount_cons] at h1
      omega
    have hcnt : ∀ i, (layerUpdate L (bloomIndices h x L.m L.k) (-1)).counters.getD i 0
        = L.counters.getD i 0 - (bloomIndices h x L.m L.k).count i := by
      intro i
      exact bumpCounters_sub _ _ hindlt hb255 hgecnt i
    have hlen2 : (layerUpdate L (bloomIndices h x L.m L.k) (-1)).counters.length = L.m := by
      rw [← hlen]
      exact bumpCounters_length _ _ _
    obtain ⟨L2, he, hm2, hk2, hl2, hec2, hcn2⟩ :=
      ih init (layerUpdate L (bloomIndices h x L.m L.k) (-1)) hm hlen2
        (fun i => by rw [hcnt i]; have := hb255 i; omega)
        (fun i => by
          have h1 := hinv i
          rw [probeCount_cons] at h1
          show probeCount h L.m L.k R i ≤
            (layerUpdate L (bloomIndices h x L.m L.k) (-1)).counters.getD i 0
          rw [hcnt i]
          omega)
    refine ⟨L2, ?_, hm2, hk2, ?_, ?_, ?_⟩
    · rw [hstep]
      exact he
    · rw [hl2, hlen2]
      exact hlen.symm
    · rw [hec2]
      simp only [layerUpdate, List.length_cons]
      push_cast
      omega
    · intro i
      rw [hcn2 i, hcnt i, probeCount_cons]
      have hmm : (layerUpdate L (bloomIndices h x L.m L.k) (-1)).m = L.m := rfl
      have hkk : (layerUpdate L (bloomIndices h x L.m L.k) (-1)).k = L.k := rfl
      rw [hmm, hkk]
      omega

theorem probeCount_eq_zero {α : Type} (h : α → Nat × Nat) (m k : Nat)
    (S : List α) (i : Nat) (hm : 0 < m) (hi : m ≤ i) :
    probeCount h m k S i = 0 := by
  rw [probeCount, List.count_eq_zero]
  intro hmem
  obtain ⟨x, _, hx⟩ := List.mem_flatMap.1 hmem
  have := bloomIndices_lt h x m k hm i hx
  omega

/-- C8 amended: contains is true for every added element, saturation or not;
and provided no counter would exceed the 255 saturation cap during the adds,
the matching removes all succeed and the element count of every layer
returns to its value before the adds. -/
theorem c8_bloom_adds_removes :
    (∀ (α : Type) (h : α → Nat × Nat) (init : List BloomLayer) (L : BloomLayer)
        (S : List α) (x : α), 0 < L.m → L.counters.length = L.m → x ∈ S →
        bloomContains h (bloomAddAll h (init ++ [L]) S) x = true) ∧
    (∀ (α : Type) (h : α → Nat × Nat) (init : List BloomLayer) (L : BloomLayer)
        (S : List α), 0 < L.m → L.counters.length = L.m →
        (∀ i, i < L.m → L.counters.getD i 0 + probeCount h L.m L.k S i ≤ 255) →
        ∃ F2 : List BloomLayer,
          bloomRemoveAll h (bloomAddAll h (init ++ [L]) S) S = some F2 ∧
          F2.map (fun l => l.element_count) =
            (init ++ [L]).map (fun l => l.element_count)) := by
  constructor
  · intro α h init L S x hm hlen hx
    exact bloom_no_false_negative h init L S x hm hlen hx
  · intro α h init L S hm hlen hbound
    have hball : ∀ i, L.counters.getD i 0 + probeCount h L.m L.k S i ≤ 255 := by
      intro i
      by_cases hi : i < L.m
      · exact hbound i hi
      · have h1 : L.counters.getD i 0 = 0 :=
          List.getD_eq_default _ _ (by rw [hlen]; omega)
        have h2 : probeCount h L.m L.k S i = 0 :=
          probeCount_eq_zero h L.m L.k S i hm (by omega)
        omega
    rw [bloomAddAll_concat_shape]
    obtain ⟨hm1, hk1, hlen1⟩ := layerFold_shape h S L
    obtain ⟨hec1, hcn1⟩ := layerFold_exact h S L hm hlen hball
    have hm1p : 0 < (S.foldl (fun l x => layerUpdate l (bloomIndices h x l.m l.k) 1) L).m := by
      rw [hm1]
      exact hm
    have hlen1m : (S.foldl (fun l x => layerUpdate l (bloomIndices h x l.m l.k) 1) L).counters.length
        = (S.foldl (fun l x => layerUpdate l (bloomIndices h x l.m l.k) 1) L).m := by
      rw [hlen1, hm1, hlen]
    have hb255 : ∀ i, (S.foldl (fun l x => layerUpdate l (bloomIndices h x l.m l.k) 1) L).counters.getD i 0 ≤ 255 := by
      intro i
      rw [hcn1 i]
      have := hball i
      omega
    have hinv : ∀ i,
        probeCount h (S.foldl (fun l x => layerUpdate l (bloomIndices h x l.m l.k) 1) L).m
          (S.foldl (fun l x => layerUpdate l (bloomIndices h x l.m l.k) 1) L).k S i ≤
        (S.foldl (fun l x => layerUpdate l (bloomIndices h x l.m l.k) 1) L).counters.getD i 0 := by
      intro i
      rw [hcn1 i, hm1, hk1]
      omega
    obtain ⟨L2, he, hm2, hk2, hl2, hec2, hcn2⟩ :=
      bloomRemoveAll_concat h S init
        (S.foldl (fun l x => layerUpdate l (bloomIndices h x l.m l.k) 1) L)
        hm1p hlen1m hb255 hinv
    refine ⟨init ++ [L2], he, ?_⟩
    have hee : L2.element_count = L.element_count := by
      rw [hec2, hec1]
      omega
    simp [hee]

theorem bloomAddAll_append {α : Type} (h : α → Nat × Nat)
    (F : List BloomLayer) (l1 l2 : List α) :
    bloomAddAll h F (l1 ++ l2) = bloomAddAll h (bloomAddAll h F l1) l2 :=
  List.foldl_append _ _ _ _

theorem bloomRemoveAll_append {α : Type} (h : α → Nat × Nat)
    (F : List BloomLayer) (l1 l2 : List α) :
    bloomRemoveAll h F (l1 ++ l2) =
      bloomRemoveAll h F l1 >>= fun F2 => bloomRemoveAll h F2 l2 :=
  List.foldlM_append _ _ _ _

set_option maxRecDepth 4000 in
/-- C8 counterexample: 256 adds of one element saturate the 8 bit counters
at 255, so the removes exhaust the counters after 255 steps and the 256th
matching remove finds the element absent, raising ValueError; the element
count, driven to 256 by the adds, never returns to its pre add value of 0. -/
theorem c8_saturation_counterexample :
    (bloomAddAll hash01 [layer8] adds256).map (fun l => l.element_count) = [256] ∧
      bloomRemoveAll hash01 (bloomAddAll hash01 [layer8] adds256) adds256 = none := by
  have hsplit : adds256 = List.replicate 64 (0 : Nat) ++
      (List.replicate 64 0 ++ (List.replicate 64 0 ++ List.replicate 64 0)) := by decide
  have ha1 : bloomAddAll hash01 [layer8] (List.replicate 64 0) =
      [⟨8, 2, [64, 64, 0, 0, 0, 0, 0, 0], 64⟩] := by decide
  have ha2 : bloomAddAll hash01 [⟨8, 2, [64, 64, 0, 0, 0, 0, 0, 0], 64⟩]
      (List.replicate 64 0) = [⟨8, 2, [128, 128, 0, 0, 0, 0, 0, 0], 128⟩] := by decide
  have ha3 : bloomAddAll hash01 [⟨8, 2, [128, 128, 0, 0, 0, 0, 0, 0], 128⟩]
      (List.replicate 64 0) = [⟨8, 2, [192, 192, 0, 0, 0, 0, 0, 0], 192⟩] := by decide
  have ha4 : bloomAddAll hash01 [⟨8, 2, [192, 192, 0, 0, 0, 0, 0, 0], 192⟩]
      (List.replicate 64 0) = [⟨8, 2, [255, 255, 0, 0, 0, 0, 0, 0], 256⟩] := by decide
  have hadds : bloomAddAll hash01 [layer8] adds256 =
      [⟨8, 2, [255, 255, 0, 0, 0, 0, 0, 0], 256⟩] := by
    rw [hsplit, bloomAddAll_append, ha1, bloomAddAll_append, ha2,
      bloomAddAll_append, ha3, ha4]
  have hr1 : bloomRemoveAll hash01 [⟨8, 2, [255, 255, 0, 0, 0, 0, 0, 0], 256⟩]
      (List.replicate 64 0) = some [⟨8, 2, [191, 191, 0, 0, 0, 0, 0, 0], 192⟩] := by decide
  have hr2 : bloomRemoveAll hash01 [⟨8, 2, [191, 191, 0, 0, 0, 0, 0, 0], 192⟩]
      (List.replicate 64 0) = some [⟨8, 2, [127, 127, 0, 0, 0, 0, 0, 0], 128⟩] := by decide
  have hr3 : bloomRemoveAll hash01 [⟨8, 2, [127, 127, 0, 0, 0, 0, 0, 0], 128⟩]
      (List.replicate 64 0) = some [⟨8, 2, [63, 63, 0, 0, 0, 0, 0, 0], 64⟩] := by decide
  have hr4 : bloomRemoveAll hash01 [⟨8, 2, [63, 63, 0, 0, 0, 0, 0, 0], 64⟩]
      (List.replicate 64 0) = none := by decide
  refine ⟨by rw [hadds]; rfl, ?_⟩
  rw [hadds, hsplit, bloomRemoveAll_append, hr1, Option.bind_eq_bind,
    Option.some_bind, bloomRemoveAll_append, hr2, Option.bind_eq_bind,
    Option.some_bind, bloomRemoveAll_append, hr3, Option.bind_eq_bind,
    Option.some_bind, hr4]

/-- Witness for c8_bloom_adds_removes on a small saturation free run. -/
theorem c8_bloom_adds_removes_witness :
    0 < layer8.m ∧
      ∃ F2 : List BloomLayer,
        bloomRemoveAll hash01
            (bloomAddAll hash01 (([] : List BloomLayer) ++ [layer8]) [5, 6]) [5, 6] = some F2 ∧
        F2.map (fun l : BloomLayer => l.element_count) =
          (([] : List BloomLayer) ++ [layer8]).map (fun l : BloomLayer => l.element_count) :=
  ⟨by decide,
   c8_bloom_adds_removes.2 Nat hash01 [] layer8 [5, 6] (by decide) (by decide)
     (by decide)⟩
